import Mathlib

/-!
Verification of the EmbedTSDB storage core against its specification.

The Go sources are shallowly embedded: Go strings and byte slices become
`List Nat` (each element a byte value), `int64` timestamps become `Int`,
`uint64` bit-stream words become `Nat` with explicit `% 2 ^ 64` where the
machine width matters, and the concurrency primitives (mutexes, atomics,
`sync.Once`, `sync.Map`) are collapsed to their sequential semantics, which
is the level at which the claims are stated.
-/

namespace EmbedTSDB

/-! ## Labels and metric keys (`src/label.go`) -/

/-- A time-series label from `src/label.go`. Go strings are byte slices, so
the name and value are lists of bytes. -/
structure Label where
  name : List Nat
  value : List Nat
deriving DecidableEq

instance : Inhabited Label := ⟨⟨[], []⟩⟩

/-- `maxLabelNameLen` from `src/label.go`. -/
def maxLabelNameLen : Nat := 256

/-- `maxLabelValueLen` from `src/label.go`. -/
def maxLabelValueLen : Nat := 16 * 1024

/-- The `invalid` closure inside `marshalMetricName`: a label is skipped when
its name or value is empty. -/
def labelInvalid (l : Label) : Bool := l.name.isEmpty || l.value.isEmpty

/-- The in-place truncation performed by the first loop of
`marshalMetricName` on a (valid) label: names longer than `maxLabelNameLen`
and values longer than `maxLabelValueLen` are cut to the limit. -/
def truncLabel (l : Label) : Label :=
  { name := if maxLabelNameLen < l.name.length then l.name.take maxLabelNameLen else l.name
    value := if maxLabelValueLen < l.value.length then l.value.take maxLabelValueLen else l.value }

/-- The comparator passed to `sort.Slice` in `marshalMetricName`:
labels are ordered by name (lexicographic byte order, as Go `<` on strings).
Go's `sort.Slice` is not stable; any order among equal names is admissible,
and the embedding fixes one by using insertion sort with the reflexive
closure of the comparator. -/
def labelLe (a b : Label) : Prop := a.name ≤ b.name

instance : DecidableRel labelLe := fun a b => inferInstanceAs (Decidable (a.name ≤ b.name))

instance : IsTotal Label labelLe := ⟨fun a b => le_total a.name b.name⟩

instance : IsTrans Label labelLe := ⟨fun _ _ _ h1 h2 => le_trans h1 h2⟩

/-- The labels as sorted by `sort.Slice(labels, ...)` in `marshalMetricName`. -/
def sortLabels (labels : List Label) : List Label := List.insertionSort labelLe labels

/-- Modelled from the spec: `encoding.MarshalUint16` (the repository's
`internal/encoding` package is not under `src/`). The spec says the key emits
`u16_be(len(...))`, i.e. the two bytes of the length, big-endian; the Go
conversion `uint16(n)` that feeds it keeps the low 16 bits of `n`. -/
def marshalUint16 (out : List Nat) (n : Nat) : List Nat :=
  out ++ [n / 256 % 256, n % 256]

/-- A length-prefixed byte string: `u16_be(len(w)) || w`, the building block
of the metric key emitted by `marshalMetricName`. -/
def lenPrefixed (w : List Nat) : List Nat := marshalUint16 [] w.length ++ w

/-- The bytes emitted for one valid label in the second loop of
`marshalMetricName` (after the first loop truncated it in place). -/
def encodeLabel (l : Label) : List Nat := lenPrefixed l.name ++ lenPrefixed l.value

/-- `marshalMetricName` from `src/label.go`, as a function of its arguments:
with no labels the metric string itself is the key; otherwise the labels are
sorted by name, valid ones truncated in place, and the key is
`u16_be(len(metric)) || metric` followed by the length-prefixed name and
value of every valid label in sorted order. -/
def marshalMetricName (metric : List Nat) (labels : List Label) : List Nat :=
  if labels.isEmpty then metric
  else
    lenPrefixed metric ++
      (sortLabels labels).flatMap
        (fun l => if labelInvalid l then [] else encodeLabel (truncLabel l))

/-- The caller-visible content of the `labels` slice after
`marshalMetricName` returns: `sort.Slice` reorders it in place, and the first
loop truncates the name and value of every valid label in place; invalid
labels are skipped by `continue` and stay untouched. -/
def labelsAfterMarshal (labels : List Label) : List Label :=
  if labels.isEmpty then labels
  else (sortLabels labels).map (fun l => if labelInvalid l then l else truncLabel l)

/-! ### Basic facts about the key encoding -/

/-- A label that `marshalMetricName` emits verbatim: nonempty name and value,
both within the truncation limits. -/
def ValidBounded (l : Label) : Prop :=
  l.name ≠ [] ∧ l.value ≠ [] ∧ l.name.length ≤ maxLabelNameLen ∧
    l.value.length ≤ maxLabelValueLen

instance (l : Label) : Decidable (ValidBounded l) :=
  inferInstanceAs (Decidable (l.name ≠ [] ∧ l.value ≠ [] ∧
    l.name.length ≤ maxLabelNameLen ∧ l.value.length ≤ maxLabelValueLen))

theorem truncLabel_eq_self {l : Label} (hn : l.name.length ≤ maxLabelNameLen)
    (hv : l.value.length ≤ maxLabelValueLen) : truncLabel l = l := by
  simp [truncLabel, Nat.not_lt.mpr hn, Nat.not_lt.mpr hv]

theorem labelInvalid_eq_false {l : Label} (h : ValidBounded l) : labelInvalid l = false := by
  obtain ⟨h1, h2, -, -⟩ := h
  simp [labelInvalid, h1, h2]

theorem flatMap_encode_of_valid : ∀ (L : List Label), (∀ l ∈ L, ValidBounded l) →
    L.flatMap (fun l => if labelInvalid l then [] else encodeLabel (truncLabel l)) =
      L.flatMap encodeLabel
  | [], _ => rfl
  | l :: t, h => by
    have hl := h l (List.mem_cons_self ..)
    have ht := flatMap_encode_of_valid t (fun x hx => h x (List.mem_cons_of_mem _ hx))
    simp only [List.flatMap_cons, ht, labelInvalid_eq_false hl, Bool.false_eq_true,
      if_false, truncLabel_eq_self hl.2.2.1 hl.2.2.2]

theorem marshalMetricName_eq_of_valid {metric : List Nat} {labels : List Label}
    (hne : labels ≠ []) (hv : ∀ l ∈ labels, ValidBounded l) :
    marshalMetricName metric labels =
      lenPrefixed metric ++ (sortLabels labels).flatMap encodeLabel := by
  have hmem : ∀ l ∈ sortLabels labels, ValidBounded l := fun l hl =>
    hv l ((List.perm_insertionSort labelLe labels).subset hl)
  rw [marshalMetricName, if_neg (by simp [hne])]
  rw [flatMap_encode_of_valid _ hmem]

theorem lenPrefixed_inj {x y r s : List Nat} (hx : x.length < 65536)
    (hy : y.length < 65536) (h : lenPrefixed x ++ r = lenPrefixed y ++ s) :
    x = y ∧ r = s := by
  simp only [lenPrefixed, marshalUint16, List.nil_append, List.cons_append,
    List.append_assoc, List.cons.injEq] at h
  obtain ⟨h1, h2, h3⟩ := h
  have hxq : x.length / 256 < 256 := by omega
  have hyq : y.length / 256 < 256 := by omega
  rw [Nat.mod_eq_of_lt hxq, Nat.mod_eq_of_lt hyq] at h1
  have hlen : x.length = y.length := by omega
  have := List.append_inj h3 hlen
  exact ⟨this.1, this.2⟩

theorem encodeLabels_inj : ∀ (L1 L2 : List Label), (∀ l ∈ L1, ValidBounded l) →
    (∀ l ∈ L2, ValidBounded l) →
    L1.flatMap encodeLabel = L2.flatMap encodeLabel → L1 = L2
  | [], [], _, _, _ => rfl
  | [], l :: _, _, _, h => by
    exfalso
    simp [encodeLabel, lenPrefixed, marshalUint16] at h
  | _ :: _, [], _, _, h => by
    exfalso
    simp [encodeLabel, lenPrefixed, marshalUint16] at h
  | a :: t1, b :: t2, h1, h2, h => by
    have ha := h1 a (List.mem_cons_self ..)
    have hb := h2 b (List.mem_cons_self ..)
    have hna : a.name.length < 65536 :=
      lt_of_le_of_lt ha.2.2.1 (by norm_num [maxLabelNameLen])
    have hnb : b.name.length < 65536 :=
      lt_of_le_of_lt hb.2.2.1 (by norm_num [maxLabelNameLen])
    have hva : a.value.length < 65536 :=
      lt_of_le_of_lt ha.2.2.2 (by norm_num [maxLabelValueLen])
    have hvb : b.value.length < 65536 :=
      lt_of_le_of_lt hb.2.2.2 (by norm_num [maxLabelValueLen])
    simp only [List.flatMap_cons, encodeLabel, List.append_assoc] at h
    obtain ⟨hname, h⟩ := lenPrefixed_inj hna hnb h
    obtain ⟨hvalue, h⟩ := lenPrefixed_inj hva hvb h
    have ht : t1 = t2 := encodeLabels_inj t1 t2
      (fun x hx => h1 x (List.mem_cons_of_mem _ hx))
      (fun x hx => h2 x (List.mem_cons_of_mem _ hx)) h
    cases a; cases b
    simp_all

instance : IsAntisymm Label (fun a b => a.name < b.name) :=
  ⟨fun _ _ h1 h2 => absurd (lt_trans h1 h2) (lt_irrefl _)⟩

theorem sortLabels_eq_of_perm {L1 L2 : List Label}
    (hd : L1.Pairwise (fun a b => a.name ≠ b.name)) (hp : L1.Perm L2) :
    sortLabels L1 = sortLabels L2 := by
  have hperm : (sortLabels L1).Perm (sortLabels L2) :=
    ((List.perm_insertionSort labelLe L1).trans hp).trans
      (List.perm_insertionSort labelLe L2).symm
  have hd1 : (sortLabels L1).Pairwise (fun a b => a.name ≠ b.name) :=
    ((List.perm_insertionSort labelLe L1).pairwise_iff
      (fun {_ _} h => Ne.symm h)).mpr hd
  have hd2 : (sortLabels L2).Pairwise (fun a b => a.name ≠ b.name) :=
    (hperm.pairwise_iff (fun {_ _} h => Ne.symm h)).mp hd1
  have hs1 : (sortLabels L1).Sorted (fun a b => a.name < b.name) := by
    have := (List.sorted_insertionSort labelLe L1).and hd1
    exact this.imp (fun h => lt_of_le_of_ne h.1 h.2)
  have hs2 : (sortLabels L2).Sorted (fun a b => a.name < b.name) := by
    have := (List.sorted_insertionSort labelLe L2).and hd2
    exact this.imp (fun h => lt_of_le_of_ne h.1 h.2)
  exact List.eq_of_perm_of_sorted hperm hs1 hs2

/-- C1, amended, forward direction at the level of label lists. -/
theorem marshal_eq_implies {m1 m2 : List Nat} {L1 L2 : List Label}
    (hm1 : m1.length < 65536) (hm2 : m2.length < 65536)
    (hv1 : ∀ l ∈ L1, ValidBounded l) (hv2 : ∀ l ∈ L2, ValidBounded l)
    (hne1 : L1 ≠ []) (hne2 : L2 ≠ [])
    (h : marshalMetricName m1 L1 = marshalMetricName m2 L2) :
    m1 = m2 ∧ L1.Perm L2 := by
  rw [marshalMetricName_eq_of_valid hne1 hv1,
    marshalMetricName_eq_of_valid hne2 hv2] at h
  have h' : lenPrefixed m1 ++ (sortLabels L1).flatMap encodeLabel =
      lenPrefixed m2 ++ (sortLabels L2).flatMap encodeLabel := h
  obtain ⟨hm, hrest⟩ := lenPrefixed_inj hm1 hm2 h'
  have hv1' : ∀ l ∈ sortLabels L1, ValidBounded l := fun l hl =>
    hv1 l ((List.perm_insertionSort labelLe L1).subset hl)
  have hv2' : ∀ l ∈ sortLabels L2, ValidBounded l := fun l hl =>
    hv2 l ((List.perm_insertionSort labelLe L2).subset hl)
  have hsort := encodeLabels_inj _ _ hv1' hv2' hrest
  refine ⟨hm, ?_⟩
  have h1 : L1.Perm (sortLabels L2) :=
    hsort ▸ (List.perm_insertionSort labelLe L1).symm
  exact h1.trans (List.perm_insertionSort labelLe L2)

theorem truncLabel_name_le (l : Label) : (truncLabel l).name.length ≤ maxLabelNameLen := by
  unfold truncLabel
  dsimp only
  split
  · simp only [List.length_take]
    omega
  · omega

theorem truncLabel_value_le (l : Label) : (truncLabel l).value.length ≤ maxLabelValueLen := by
  unfold truncLabel
  dsimp only
  split
  · simp only [List.length_take]
    omega
  · omega

/-! ### Claim C1 -/

/-- C1, as stated, is false: with `L1 = [{name: "", value: "y"}]` and
`L2 = []` both label lists denote the same (empty) label set after dropping
invalid labels, yet the keys differ, because an empty label list short-cuts
to the bare metric string while a nonempty one emits the length prefix. -/
theorem marshalMetricName_iff_fails_on_invalid_label :
    ¬ (marshalMetricName [120] [⟨[], [121]⟩] = marshalMetricName [120] [] ↔
      (([120] : List Nat) = [120] ∧
        ([(⟨[], [121]⟩ : Label)].filter (fun l => ! labelInvalid l)).Perm
          (([] : List Label).filter (fun l => ! labelInvalid l)))) := by
  decide

/-- C1 (amended): MetricKey identity. For metric names shorter than 2^16
bytes and nonempty label lists whose labels all have nonempty names and
values within the truncation limits, with pairwise-distinct names,
`marshalMetricName` produces equal keys exactly when the metric names are
equal and the label lists are permutations of each other (the same label
set, independent of label order); in particular the key is stable under any
permutation of the labels. -/
theorem marshalMetricName_eq_iff (m1 m2 : List Nat) (L1 L2 : List Label)
    (hm1 : m1.length < 65536) (hm2 : m2.length < 65536)
    (hv1 : ∀ l ∈ L1, ValidBounded l) (hv2 : ∀ l ∈ L2, ValidBounded l)
    (hd1 : L1.Pairwise (fun a b => a.name ≠ b.name))
    (hne1 : L1 ≠ []) (hne2 : L2 ≠ []) :
    marshalMetricName m1 L1 = marshalMetricName m2 L2 ↔
      (m1 = m2 ∧ L1.Perm L2) := by
  constructor
  · exact marshal_eq_implies hm1 hm2 hv1 hv2 hne1 hne2
  · rintro ⟨rfl, hp⟩
    rw [marshalMetricName_eq_of_valid hne1 hv1,
      marshalMetricName_eq_of_valid hne2 hv2, sortLabels_eq_of_perm hd1 hp]

/-- Witness for C1: the amended identity applies to the concrete reordering
of the two labels `a=1`, `b=2` on metric `m`. -/
theorem marshalMetricName_eq_iff_witness :
    (([109] : List Nat).length < 65536 ∧
      (∀ l ∈ [(⟨[97], [49]⟩ : Label), ⟨[98], [50]⟩], ValidBounded l) ∧
      (∀ l ∈ [(⟨[98], [50]⟩ : Label), ⟨[97], [49]⟩], ValidBounded l) ∧
      ([(⟨[97], [49]⟩ : Label), ⟨[98], [50]⟩].Pairwise
        (fun a b => a.name ≠ b.name)) ∧
      [(⟨[97], [49]⟩ : Label), ⟨[98], [50]⟩] ≠ [] ∧
      [(⟨[98], [50]⟩ : Label), ⟨[97], [49]⟩] ≠ []) ∧
    (marshalMetricName [109] [⟨[97], [49]⟩, ⟨[98], [50]⟩] =
        marshalMetricName [109] [⟨[98], [50]⟩, ⟨[97], [49]⟩] ↔
      (([109] : List Nat) = [109] ∧
        [(⟨[97], [49]⟩ : Label), ⟨[98], [50]⟩].Perm
          [⟨[98], [50]⟩, ⟨[97], [49]⟩])) :=
  ⟨⟨by decide, by decide, by decide, by decide, by decide, by decide⟩,
    marshalMetricName_eq_iff _ _ _ _ (by decide) (by decide) (by decide)
      (by decide) (by decide) (by decide) (by decide)⟩

/-! ### Claim C10 -/

/-- C10, as stated, is false: a label with an empty name is skipped by the
`invalid` check before the truncation check runs, so its over-long value is
NOT truncated in the caller's slice. -/
theorem labelsAfterMarshal_invalid_untouched :
    ¬ (∀ l ∈ labelsAfterMarshal [⟨[], List.replicate 16385 97⟩],
        l.value.length ≤ maxLabelValueLen) := by
  have key : ∀ v : List Nat, labelsAfterMarshal [⟨[], v⟩] = [⟨[], v⟩] := by
    intro v
    simp [labelsAfterMarshal, sortLabels, List.insertionSort,
      List.orderedInsert, labelInvalid]
  intro h
  have := h ⟨[], List.replicate 16385 97⟩
    (by rw [key]; exact List.mem_cons_self ..)
  simp only [List.length_replicate, maxLabelValueLen] at this
  omega

/-- C10 (amended): `marshalMetricName` mutates its labels argument in
place — after the call the caller's slice is a by-name sorted rearrangement
of the original labels in which every valid label (nonempty name and value)
has its name truncated to 256 bytes and its value to 16384 bytes, while
labels with an empty name or value are reordered but left untouched, so
every label in the post-state is either invalid or within the limits. -/
theorem labelsAfterMarshal_spec (L : List Label) :
    (∃ L' : List Label, L'.Perm L ∧ L'.Sorted labelLe ∧
      labelsAfterMarshal L =
        L'.map (fun l => if labelInvalid l then l else truncLabel l)) ∧
    ∀ l ∈ labelsAfterMarshal L, labelInvalid l = true ∨
      (l.name.length ≤ maxLabelNameLen ∧ l.value.length ≤ maxLabelValueLen) := by
  constructor
  · by_cases h : L.isEmpty
    · have : L = [] := by simpa using h
      subst this
      exact ⟨[], List.Perm.refl _, List.sorted_nil, rfl⟩
    · refine ⟨sortLabels L, List.perm_insertionSort labelLe L,
        List.sorted_insertionSort labelLe L, ?_⟩
      rw [labelsAfterMarshal, if_neg (by simp [h])]
  · intro l hl
    rw [labelsAfterMarshal] at hl
    split at hl
    · next h =>
        rw [List.isEmpty_iff.mp h] at hl
        exact absurd hl (List.not_mem_nil l)
    · obtain ⟨l0, -, rfl⟩ := List.mem_map.mp hl
      by_cases hi : labelInvalid l0
      · exact Or.inl (by simp [hi])
      · refine Or.inr ?_
        simp only [hi, Bool.false_eq_true, if_false]
        exact ⟨truncLabel_name_le l0, truncLabel_value_le l0⟩

/-! ## Memory partition (`src/memory_partition.go`)

The concurrency machinery (atomics, `sync.Once`, `sync.Map`, the per-series
RW-lock with its optimistic fast path) is collapsed to sequential semantics;
`sync.Once` becomes the `minTSet` flag and the double-checked fast path of
`insertPoint` collapses to its single-threaded outcome. `time.Now()` is a
parameter `now` (already converted by `toUnix` to the configured precision),
and the WAL is modelled by a failure flag plus a log of appended batches. -/

instance {ε α : Type} [DecidableEq ε] [DecidableEq α] : DecidableEq (Except ε α)
  | .error a, .error b =>
    if h : a = b then .isTrue (by rw [h])
    else .isFalse (by intro hx; cases hx; exact h rfl)
  | .error _, .ok _ => .isFalse (by intro h; cases h)
  | .ok _, .error _ => .isFalse (by intro h; cases h)
  | .ok a, .ok b =>
    if h : a = b then .isTrue (by rw [h])
    else .isFalse (by intro hx; cases hx; exact h rfl)

/-- A data point: `int64` timestamp and a `float64` value carried opaquely
as its 64-bit pattern (none of the partition code computes with values). -/
structure DataPoint where
  timestamp : Int
  value : Nat
deriving DecidableEq

instance : Inhabited DataPoint := ⟨⟨0, 0⟩⟩

/-- An insert row: metric name, labels and one data point. -/
structure Row where
  metric : List Nat
  labels : List Label
  point : DataPoint
deriving DecidableEq

instance : Inhabited Row := ⟨⟨[], [], default⟩⟩

/-- `memoryMetric`: one series inside a memory partition. `size` counts the
in-order points (the code increments it only on in-order appends). -/
structure memoryMetric where
  name : List Nat
  size : Int
  minTimestamp : Int
  maxTimestamp : Int
  points : List DataPoint
  outOfOrderPoints : List DataPoint
deriving DecidableEq

/-- A fresh series as created by `getMetric` (pooled slices start empty). -/
def freshMetric (name : List Nat) : memoryMetric := ⟨name, 0, 0, 0, [], []⟩

/-- `memoryMetric.insertPoint`, sequential semantics: first insertion sets
min/max; a strictly newer timestamp is appended in order and bumps
`maxTimestamp` and `size`; anything else goes to the out-of-order list
without touching `size`. -/
def insertPoint (m : memoryMetric) (p : DataPoint) : memoryMetric :=
  if m.size = 0 then
    { m with points := m.points ++ [p], minTimestamp := p.timestamp,
             maxTimestamp := p.timestamp, size := m.size + 1 }
  else if (m.points.getLastD default).timestamp < p.timestamp then
    { m with points := m.points ++ [p], maxTimestamp := p.timestamp,
             size := m.size + 1 }
  else
    { m with outOfOrderPoints := m.outOfOrderPoints ++ [p] }

/-- `memoryPartition`. `metrics` models the `sync.Map` as an association
list; `walFail` models whether `wal.append` reports an I/O error, and
`walLog` records successfully appended batches. -/
structure memoryPartition where
  numPoints : Int
  minT : Int
  maxT : Int
  minTSet : Bool
  metrics : List (List Nat × memoryMetric)
  walFail : Bool
  walLog : List (List Row)
deriving DecidableEq

/-- `newMemoryPartition`: Go zero values, `once` not yet fired. -/
def newMemoryPartition (walFail : Bool) : memoryPartition :=
  ⟨0, 0, 0, false, [], walFail, []⟩

/-- The one-shot minimum in `insertRows`: `min := rows[0].Timestamp` then
lowered over the whole batch. -/
def batchMin (rows : List Row) : Int :=
  rows.foldl (fun acc r => if r.point.timestamp < acc then r.point.timestamp else acc)
    ((rows.headD default).point.timestamp)

/-- `getMetric` on the metrics map, insert-if-absent; returns the updated
map together with the series found or created. -/
def upsertPoint : List (List Nat × memoryMetric) → List Nat → DataPoint →
    List (List Nat × memoryMetric)
  | [], name, p => [(name, insertPoint (freshMetric name) p)]
  | e :: rest, name, p =>
    if e.1 = name then (e.1, insertPoint e.2 p) :: rest
    else e :: upsertPoint rest name p

/-- The accumulator of the row loop in `insertRows`. -/
structure LoopAcc where
  metrics : List (List Nat × memoryMetric)
  outdated : List Row
  maxTs : Int
  rowsNum : Int
deriving DecidableEq

/-- The timestamp stamping in the row loop: a zero timestamp is replaced by
`toUnix(time.Now(), precision)`, modelled by the parameter `now`. -/
def stamp (now : Int) (p : DataPoint) : DataPoint :=
  if p.timestamp = 0 then ⟨now, p.value⟩ else p

/-- One iteration of the row loop in `insertRows`: rows older than the
partition minimum are collected as outdated; otherwise a zero timestamp is
stamped with `now`, the running maximum is raised, and the point is inserted
into its series. -/
def stepRow (minT now : Int) (a : LoopAcc) (row : Row) : LoopAcc :=
  if row.point.timestamp < minT then
    { a with outdated := a.outdated ++ [row] }
  else
    { metrics := upsertPoint a.metrics (marshalMetricName row.metric row.labels)
        (stamp now row.point)
      outdated := a.outdated
      maxTs := if a.maxTs < (stamp now row.point).timestamp
               then (stamp now row.point).timestamp else a.maxTs
      rowsNum := a.rowsNum + 1 }

/-- The row loop of `insertRows`: `maxTimestamp` starts at the first row's
timestamp and the loop folds over the batch. -/
def runBatch (minT now : Int) (ms : List (List Nat × memoryMetric))
    (rows : List Row) : LoopAcc :=
  rows.foldl (stepRow minT now) ⟨ms, [], (rows.headD default).point.timestamp, 0⟩

/-- `memoryPartition.insertRows`. Empty batches and WAL failures error out
before any state change; otherwise the batch is WAL-logged, the one-shot
minimum is fixed on the first call, the row loop runs, and the counters are
published (`maxT` raised monotonically). Returns the new partition state and
either an error or the outdated rows. -/
def insertRows (now : Int) (m : memoryPartition) (rows : List Row) :
    memoryPartition × Except String (List Row) :=
  if rows = [] then (m, .error "no rows given")
  else if m.walFail then (m, .error "failed to write to WAL")
  else
    ({ numPoints := m.numPoints +
          (runBatch (if m.minTSet then m.minT else batchMin rows) now m.metrics rows).rowsNum
       minT := if m.minTSet then m.minT else batchMin rows
       maxT := if m.maxT <
            (runBatch (if m.minTSet then m.minT else batchMin rows) now m.metrics rows).maxTs
          then (runBatch (if m.minTSet then m.minT else batchMin rows) now m.metrics rows).maxTs
          else m.maxT
       minTSet := true
       metrics := (runBatch (if m.minTSet then m.minT else batchMin rows) now m.metrics rows).metrics
       walFail := m.walFail
       walLog := m.walLog ++ [rows] },
     .ok (runBatch (if m.minTSet then m.minT else batchMin rows) now m.metrics rows).outdated)

/-- `sort.Search(n, f)`: the smallest index in `[0, n)` satisfying the
(monotone) predicate, or `n` when none does. -/
def sortSearch (n : Nat) (f : Nat → Bool) : Nat := (List.range n).findIdx f

/-- `memoryMetric.selectPoints`: re-slicing `[startIdx:endIdx]` of the
in-order list, with the indices found by binary search. A Go slice
expression panics when `startIdx > endIdx` (or the end exceeds the slice
length); the panic is modelled as `none`. -/
def selectPoints (m : memoryMetric) (s e : Int) : Option (List DataPoint) :=
  if e ≤ m.minTimestamp then some []
  else
    let n := m.size.toNat
    let startIdx := if s ≤ m.minTimestamp then 0
      else sortSearch n (fun i => s ≤ (m.points.getD i default).timestamp)
    let endIdx := if m.maxTimestamp < e then n
      else sortSearch n (fun i => e ≤ (m.points.getD i default).timestamp)
    if startIdx ≤ endIdx ∧ endIdx ≤ m.points.length then
      some ((m.points.take endIdx).drop startIdx)
    else none

/-- The series `selectDataPoints` reads (the stored one, or a fresh one). -/
def lookupMetric (mp : memoryPartition) (name : List Nat) : memoryMetric :=
  match mp.metrics.find? (fun e => e.1 = name) with
  | some e => e.2
  | none => freshMetric name

/-- `memoryPartition.selectDataPoints`: key the series and select. Its
`getMetric` call stores a fresh empty series on a miss, which is the
returned partition state. -/
def selectDataPoints (mp : memoryPartition) (metric : List Nat)
    (labels : List Label) (s e : Int) :
    memoryPartition × Option (List DataPoint) :=
  let name := marshalMetricName metric labels
  match mp.metrics.find? (fun x => x.1 = name) with
  | some x => (mp, selectPoints x.2 s e)
  | none =>
    ({ mp with metrics := mp.metrics ++ [(name, freshMetric name)] },
     selectPoints (freshMetric name) s e)

/-- A sequence of `insertRows` calls, each with its own `now` instant. -/
def applyBatches (m : memoryPartition) : List (Int × List Row) → memoryPartition
  | [] => m
  | b :: bs => applyBatches (insertRows b.1 m b.2).1 bs

/-! ### Counting and bound lemmas for the insert path -/

/-- Sum over all series of the series `size` counter plus the length of its
out-of-order list. -/
def sizeSum (ms : List (List Nat × memoryMetric)) : Int :=
  (ms.map (fun x => x.2.size + (x.2.outOfOrderPoints.length : Int))).sum

theorem insertPoint_sizeDelta (m : memoryMetric) (p : DataPoint) :
    (insertPoint m p).size + ((insertPoint m p).outOfOrderPoints.length : Int) =
      m.size + (m.outOfOrderPoints.length : Int) + 1 := by
  unfold insertPoint
  split
  · simp only
    omega
  · split
    · simp only
      omega
    · simp only [List.length_append, List.length_cons, List.length_nil]
      push_cast
      ring

theorem upsertPoint_sizeSum : ∀ (ms : List (List Nat × memoryMetric))
    (name : List Nat) (p : DataPoint),
    sizeSum (upsertPoint ms name p) = sizeSum ms + 1
  | [], name, p => by
    have h := insertPoint_sizeDelta (freshMetric name) p
    simp only [freshMetric, List.length_nil] at h
    simp only [upsertPoint, sizeSum, List.map_cons, List.map_nil,
      List.sum_cons, List.sum_nil, freshMetric]
    omega
  | x :: rest, name, p => by
    unfold upsertPoint
    split
    · simp only [sizeSum, List.map_cons, List.sum_cons,
        insertPoint_sizeDelta x.2 p]
      ring
    · have ih := upsertPoint_sizeSum rest name p
      simp only [sizeSum, List.map_cons, List.sum_cons]
      simp only [sizeSum] at ih
      rw [ih]
      ring

theorem foldl_step_outdated (minT now : Int) :
    ∀ (rows : List Row) (a : LoopAcc),
    (rows.foldl (stepRow minT now) a).outdated =
      a.outdated ++ rows.filter (fun r => decide (r.point.timestamp < minT))
  | [], a => by simp
  | r :: rest, a => by
    rw [List.foldl_cons, foldl_step_outdated minT now rest]
    unfold stepRow
    by_cases h : r.point.timestamp < minT
    · simp [h]
    · simp [h]

theorem foldl_step_rowsNum (minT now : Int) :
    ∀ (rows : List Row) (a : LoopAcc),
    (rows.foldl (stepRow minT now) a).rowsNum =
      a.rowsNum + (rows.countP (fun r => ! decide (r.point.timestamp < minT)) : Int)
  | [], a => by simp
  | r :: rest, a => by
    rw [List.foldl_cons, foldl_step_rowsNum minT now rest]
    unfold stepRow
    by_cases h : r.point.timestamp < minT
    · simp [List.countP_cons, h]
    · simp only [h, if_false, List.countP_cons, decide_not]
      simp [h]
      ring

theorem foldl_step_sizeSum (minT now : Int) :
    ∀ (rows : List Row) (a : LoopAcc),
    sizeSum (rows.foldl (stepRow minT now) a).metrics =
      sizeSum a.metrics +
        (rows.countP (fun r => ! decide (r.point.timestamp < minT)) : Int)
  | [], a => by simp
  | r :: rest, a => by
    rw [List.foldl_cons, foldl_step_sizeSum minT now rest]
    unfold stepRow
    by_cases h : r.point.timestamp < minT
    · simp [List.countP_cons, h]
    · simp only [h, if_false, List.countP_cons, decide_not]
      simp only [upsertPoint_sizeSum, h]
      simp
      ring

theorem foldl_step_maxTs_mono (minT now : Int) :
    ∀ (rows : List Row) (a : LoopAcc),
    a.maxTs ≤ (rows.foldl (stepRow minT now) a).maxTs
  | [], a => le_refl _
  | r :: rest, a => by
    rw [List.foldl_cons]
    refine le_trans ?_ (foldl_step_maxTs_mono minT now rest _)
    unfold stepRow
    by_cases h : r.point.timestamp < minT
    · simp [h]
    · simp only [h, if_false]
      split <;> omega

theorem foldlMin_le_acc : ∀ (l : List Row) (acc : Int),
    l.foldl (fun acc r => if r.point.timestamp < acc then r.point.timestamp else acc) acc ≤ acc
  | [], _ => le_refl _
  | x :: xs, acc => by
    rw [List.foldl_cons]
    refine le_trans (foldlMin_le_acc xs _) ?_
    split <;> omega

theorem foldlMin_mono : ∀ (l : List Row) (a b : Int), a ≤ b →
    l.foldl (fun acc r => if r.point.timestamp < acc then r.point.timestamp else acc) a ≤
      l.foldl (fun acc r => if r.point.timestamp < acc then r.point.timestamp else acc) b
  | [], a, b, hab => hab
  | x :: xs, a, b, hab => by
    rw [List.foldl_cons, List.foldl_cons]
    refine foldlMin_mono xs _ _ ?_
    dsimp only
    split <;> split <;> omega

theorem foldlMin_le_mem : ∀ (l : List Row) (acc : Int) (r : Row), r ∈ l →
    l.foldl (fun acc r => if r.point.timestamp < acc then r.point.timestamp else acc) acc ≤
      r.point.timestamp
  | [], _, r, hm => absurd hm (List.not_mem_nil r)
  | x :: xs, acc, r, hm => by
    rw [List.foldl_cons]
    rcases List.mem_cons.mp hm with rfl | hm
    · refine le_trans (foldlMin_mono xs _ r.point.timestamp ?_) (foldlMin_le_acc xs _)
      dsimp only
      split <;> omega
    · exact foldlMin_le_mem xs _ r hm

theorem batchMin_le_head (rows : List Row) :
    batchMin rows ≤ (rows.headD default).point.timestamp :=
  foldlMin_le_acc rows _

theorem batchMin_le_mem {rows : List Row} {r : Row} (h : r ∈ rows) :
    batchMin rows ≤ r.point.timestamp :=
  foldlMin_le_mem rows _ r h

/-! ### Stored-point bound and membership lemmas -/

/-- All points stored in the series map (in-order and out-of-order) have
timestamps at least `B`. -/
def storedLB (ms : List (List Nat × memoryMetric)) (B : Int) : Prop :=
  ∀ e ∈ ms, (∀ p ∈ e.2.points, B ≤ p.timestamp) ∧
    (∀ p ∈ e.2.outOfOrderPoints, B ≤ p.timestamp)

instance (ms : List (List Nat × memoryMetric)) (B : Int) :
    Decidable (storedLB ms B) :=
  inferInstanceAs (Decidable (∀ e ∈ ms,
    (∀ p ∈ e.2.points, B ≤ p.timestamp) ∧
      (∀ p ∈ e.2.outOfOrderPoints, B ≤ p.timestamp)))

theorem insertPoint_points_sub {m : memoryMetric} {p q : DataPoint}
    (h : q ∈ (insertPoint m p).points ∨ q ∈ (insertPoint m p).outOfOrderPoints) :
    q ∈ m.points ∨ q ∈ m.outOfOrderPoints ∨ q = p := by
  unfold insertPoint at h
  split at h
  · rcases h with h | h
    · rcases List.mem_append.mp h with h | h
      · exact Or.inl h
      · simp at h
        exact Or.inr (Or.inr h)
    · exact Or.inr (Or.inl h)
  · split at h
    · rcases h with h | h
      · rcases List.mem_append.mp h with h | h
        · exact Or.inl h
        · simp at h
          exact Or.inr (Or.inr h)
      · exact Or.inr (Or.inl h)
    · rcases h with h | h
      · exact Or.inl h
      · rcases List.mem_append.mp h with h | h
        · exact Or.inr (Or.inl h)
        · simp at h
          exact Or.inr (Or.inr h)

theorem upsertPoint_storedLB {B : Int} {p : DataPoint} (hp : B ≤ p.timestamp) :
    ∀ {ms : List (List Nat × memoryMetric)} {name : List Nat},
    storedLB ms B → storedLB (upsertPoint ms name p) B := by
  intro ms
  induction ms with
  | nil =>
    intro name _ e he
    simp only [upsertPoint, List.mem_singleton] at he
    subst he
    constructor
    · intro q hq
      rcases insertPoint_points_sub (Or.inl hq) with h | h | h
      · simp [freshMetric] at h
      · simp [freshMetric] at h
      · exact h ▸ hp
    · intro q hq
      rcases insertPoint_points_sub (Or.inr hq) with h | h | h
      · simp [freshMetric] at h
      · simp [freshMetric] at h
      · exact h ▸ hp
  | cons x rest ih =>
    intro name hlb e he
    rw [upsertPoint] at he
    split at he
    · rcases List.mem_cons.mp he with rfl | he
      · have hx := hlb x (List.mem_cons_self ..)
        constructor
        · intro q hq
          rcases insertPoint_points_sub (Or.inl hq) with h | h | h
          · exact hx.1 q h
          · exact hx.2 q h
          · exact h ▸ hp
        · intro q hq
          rcases insertPoint_points_sub (Or.inr hq) with h | h | h
          · exact hx.1 q h
          · exact hx.2 q h
          · exact h ▸ hp
      · exact hlb e (List.mem_cons_of_mem _ he)
    · rcases List.mem_cons.mp he with rfl | he
      · exact hlb e (List.mem_cons_self ..)
      · exact ih (fun y hy => hlb y (List.mem_cons_of_mem _ hy)) e he

theorem foldl_step_storedLB {minT now : Int} (hnow : 0 ≤ now) :
    ∀ (rows : List Row) (a : LoopAcc),
    storedLB a.metrics minT →
    storedLB (rows.foldl (stepRow minT now) a).metrics minT
  | [], _, h => h
  | r :: rest, a, h => by
    rw [List.foldl_cons]
    refine foldl_step_storedLB hnow rest _ ?_
    unfold stepRow
    by_cases hout : r.point.timestamp < minT
    · simpa [hout] using h
    · simp only [hout, if_false]
      refine upsertPoint_storedLB ?_ h
      unfold stamp
      split
      · next h0 =>
          dsimp only
          omega
      · omega

/-- A point is recorded under a series name in the metrics map. -/
def storedIn (ms : List (List Nat × memoryMetric)) (name : List Nat)
    (p : DataPoint) : Prop :=
  ∃ e ∈ ms, e.1 = name ∧ (p ∈ e.2.points ∨ p ∈ e.2.outOfOrderPoints)

theorem insertPoint_mem_self (m : memoryMetric) (p : DataPoint) :
    p ∈ (insertPoint m p).points ∨ p ∈ (insertPoint m p).outOfOrderPoints := by
  unfold insertPoint
  split
  · exact Or.inl (List.mem_append.mpr (Or.inr (List.mem_singleton.mpr rfl)))
  · split
    · exact Or.inl (List.mem_append.mpr (Or.inr (List.mem_singleton.mpr rfl)))
    · exact Or.inr (List.mem_append.mpr (Or.inr (List.mem_singleton.mpr rfl)))

theorem insertPoint_mem_mono {m : memoryMetric} {q : DataPoint} (p : DataPoint)
    (h : q ∈ m.points ∨ q ∈ m.outOfOrderPoints) :
    q ∈ (insertPoint m p).points ∨ q ∈ (insertPoint m p).outOfOrderPoints := by
  unfold insertPoint
  split
  · rcases h with h | h
    · exact Or.inl (List.mem_append.mpr (Or.inl h))
    · exact Or.inr h
  · split
    · rcases h with h | h
      · exact Or.inl (List.mem_append.mpr (Or.inl h))
      · exact Or.inr h
    · rcases h with h | h
      · exact Or.inl h
      · exact Or.inr (List.mem_append.mpr (Or.inl h))

theorem upsertPoint_storedIn_self :
    ∀ (ms : List (List Nat × memoryMetric)) (name : List Nat) (p : DataPoint),
    storedIn (upsertPoint ms name p) name p
  | [], name, p =>
    ⟨(name, insertPoint (freshMetric name) p), List.mem_singleton.mpr rfl, rfl,
      insertPoint_mem_self _ p⟩
  | x :: rest, name, p => by
    rw [upsertPoint]
    split
    · next hx =>
      exact ⟨(x.1, insertPoint x.2 p), List.mem_cons_self .., hx,
        insertPoint_mem_self _ p⟩
    · obtain ⟨e, he, hn, hm⟩ := upsertPoint_storedIn_self rest name p
      exact ⟨e, List.mem_cons_of_mem _ he, hn, hm⟩

theorem upsertPoint_storedIn_mono {ms : List (List Nat × memoryMetric)}
    {n : List Nat} {q : DataPoint} (name : List Nat) (p : DataPoint)
    (h : storedIn ms n q) : storedIn (upsertPoint ms name p) n q := by
  induction ms with
  | nil => obtain ⟨e, he, -⟩ := h; exact absurd he (List.not_mem_nil e)
  | cons x rest ih =>
    obtain ⟨e, he, hn, hm⟩ := h
    rw [upsertPoint]
    split
    · rcases List.mem_cons.mp he with rfl | he
      · exact ⟨(e.1, insertPoint e.2 p), List.mem_cons_self .., hn,
          insertPoint_mem_mono p hm⟩
      · exact ⟨e, List.mem_cons_of_mem _ he, hn, hm⟩
    · rcases List.mem_cons.mp he with rfl | he
      · exact ⟨e, List.mem_cons_self .., hn, hm⟩
      · obtain ⟨e', he', hn', hm'⟩ := ih ⟨e, he, hn, hm⟩
        exact ⟨e', List.mem_cons_of_mem _ he', hn', hm'⟩

theorem foldl_step_storedIn_mono (minT now : Int) {n : List Nat}
    {q : DataPoint} :
    ∀ (rows : List Row) (a : LoopAcc), storedIn a.metrics n q →
    storedIn (rows.foldl (stepRow minT now) a).metrics n q
  | [], _, h => h
  | r :: rest, a, h => by
    rw [List.foldl_cons]
    refine foldl_step_storedIn_mono minT now rest _ ?_
    unfold stepRow
    by_cases hout : r.point.timestamp < minT
    · simpa [hout] using h
    · simp only [hout, if_false]
      exact upsertPoint_storedIn_mono _ _ h

theorem foldl_step_storedIn_of_mem (minT now : Int) {r : Row} :
    ∀ (rows : List Row) (a : LoopAcc), r ∈ rows →
    ¬ r.point.timestamp < minT →
    storedIn (rows.foldl (stepRow minT now) a).metrics
      (marshalMetricName r.metric r.labels) (stamp now r.point)
  | [], _, hm, _ => absurd hm (List.not_mem_nil r)
  | x :: rest, a, hm, hts => by
    rw [List.foldl_cons]
    rcases List.mem_cons.mp hm with rfl | hm
    · refine foldl_step_storedIn_mono minT now rest _ ?_
      unfold stepRow
      simp only [hts, if_false]
      exact upsertPoint_storedIn_self _ _ _
    · exact foldl_step_storedIn_of_mem minT now rest _ hm hts

/-! ### Claim C5 -/

/-- C5: WAL atomicity. When the WAL append fails, `insertRows` on a
non-empty batch returns the wrapped WAL error and the partition state is
untouched: `minT`, `maxT`, `numPoints`, the whole series map (hence every
series' in-order and out-of-order lists) and even the WAL log are exactly as
before the call. -/
theorem insertRows_wal_failure_no_effect (now : Int) (m : memoryPartition)
    (rows : List Row) (hne : rows ≠ []) (hw : m.walFail = true) :
    (insertRows now m rows).2 = Except.error "failed to write to WAL" ∧
    (insertRows now m rows).1.minT = m.minT ∧
    (insertRows now m rows).1.maxT = m.maxT ∧
    (insertRows now m rows).1.numPoints = m.numPoints ∧
    (insertRows now m rows).1.metrics = m.metrics ∧
    (insertRows now m rows).1 = m := by
  rw [insertRows, if_neg hne, if_pos (by simp [hw])]
  exact ⟨rfl, rfl, rfl, rfl, rfl, rfl⟩

/-- Witness for C5 at a concrete partition with a failing WAL. -/
theorem insertRows_wal_failure_no_effect_witness :
    (([⟨[109], [], ⟨1, 0⟩⟩] : List Row) ≠ [] ∧
      (newMemoryPartition true).walFail = true) ∧
    ((insertRows 7 (newMemoryPartition true) [⟨[109], [], ⟨1, 0⟩⟩]).2 =
        Except.error "failed to write to WAL" ∧
      (insertRows 7 (newMemoryPartition true) [⟨[109], [], ⟨1, 0⟩⟩]).1.minT =
        (newMemoryPartition true).minT ∧
      (insertRows 7 (newMemoryPartition true) [⟨[109], [], ⟨1, 0⟩⟩]).1.maxT =
        (newMemoryPartition true).maxT ∧
      (insertRows 7 (newMemoryPartition true) [⟨[109], [], ⟨1, 0⟩⟩]).1.numPoints =
        (newMemoryPartition true).numPoints ∧
      (insertRows 7 (newMemoryPartition true) [⟨[109], [], ⟨1, 0⟩⟩]).1.metrics =
        (newMemoryPartition true).metrics ∧
      (insertRows 7 (newMemoryPartition true) [⟨[109], [], ⟨1, 0⟩⟩]).1 =
        newMemoryPartition true) :=
  ⟨⟨by decide, by decide⟩,
    insertRows_wal_failure_no_effect 7 (newMemoryPartition true) _
      (by decide) (by decide)⟩

/-! ### Claim C7 -/

/-- The counting invariant of a memory partition, with the sum counting both
the series `size` counter and the out-of-order points. -/
def countInv (m : memoryPartition) : Prop :=
  m.minT ≤ m.maxT ∧ 0 ≤ m.maxT ∧ m.numPoints = sizeSum m.metrics

theorem countInv_insertRows (now : Int) {m : memoryPartition}
    (rows : List Row) (h : countInv m) : countInv (insertRows now m rows).1 := by
  by_cases hne : rows = []
  · rw [insertRows, if_pos hne]
    exact h
  · by_cases hw : m.walFail = true
    · rw [insertRows, if_neg hne, if_pos (by simp [hw])]
      exact h
    · rw [insertRows, if_neg hne, if_neg hw]
      obtain ⟨h1, h2, h3⟩ := h
      have hbm := batchMin_le_head rows
      unfold countInv runBatch
      generalize hMT : (if m.minTSet = true then m.minT else batchMin rows) = minT'
      have hcase : minT' ≤ m.maxT ∨
          minT' ≤ (rows.headD default).point.timestamp := by
        rw [← hMT]
        split
        · exact Or.inl h1
        · exact Or.inr hbm
      have hmax := foldl_step_maxTs_mono minT' now rows
        ⟨m.metrics, [], (rows.headD default).point.timestamp, 0⟩
      have hnum := foldl_step_rowsNum minT' now rows
        ⟨m.metrics, [], (rows.headD default).point.timestamp, 0⟩
      have hsum := foldl_step_sizeSum minT' now rows
        ⟨m.metrics, [], (rows.headD default).point.timestamp, 0⟩
      dsimp only at hmax hnum hsum ⊢
      refine ⟨?_, ?_, ?_⟩
      · rcases hcase with hc | hc <;> split <;> omega
      · split <;> omega
      · rw [hnum, hsum, h3]
        ring

theorem countInv_applyBatches :
    ∀ (bs : List (Int × List Row)) {m : memoryPartition}, countInv m →
    countInv (applyBatches m bs)
  | [], _, h => h
  | b :: bs, _, h => countInv_applyBatches bs (countInv_insertRows b.1 b.2 h)

/-- C7 as stated is false: the series `size` counter counts only in-order
points, so after the single batch `[ts=5, ts=3]` (the second point lands in
the out-of-order list) the partition's `numPoints` is 2 while the sum of
series size counters is 1. -/
theorem numPoints_ne_sum_sizes :
    (insertRows 1 (newMemoryPartition false)
        [⟨[109], [], ⟨5, 0⟩⟩, ⟨[109], [], ⟨3, 0⟩⟩]).1.numPoints = 2 ∧
    ((insertRows 1 (newMemoryPartition false)
        [⟨[109], [], ⟨5, 0⟩⟩, ⟨[109], [], ⟨3, 0⟩⟩]).1.metrics.map
      (fun x => x.2.size)).sum = 1 := by
  decide

/-- C7 (amended): after any sequence of `insertRows` calls on a fresh
memory partition, `minTimestamp() ≤ maxTimestamp()` holds, and `numPoints`
equals the sum over all series of the series `size` counter plus the length
of the series' out-of-order list (the `size` counter alone omits
out-of-order points). -/
theorem memoryPartition_count_invariant (walFail : Bool)
    (bs : List (Int × List Row)) :
    (applyBatches (newMemoryPartition walFail) bs).minT ≤
      (applyBatches (newMemoryPartition walFail) bs).maxT ∧
    (applyBatches (newMemoryPartition walFail) bs).numPoints =
      sizeSum (applyBatches (newMemoryPartition walFail) bs).metrics := by
  have h := @countInv_applyBatches bs (newMemoryPartition walFail)
    ⟨le_refl 0, le_refl 0, rfl⟩
  exact ⟨h.1, h.2.2⟩

/-! ### Claim C6 -/

/-- C6 as stated is false: in a partition whose min timestamp is 100, a row
with timestamp 0 is classified outdated (0 < 100) before the zero-stamping
check runs, so it is returned un-stamped in the outdated rows and no series
changes — it is neither stamped nor inserted. -/
theorem insertRows_zero_timestamp_outdated :
    (insertRows 42 (insertRows 1 (newMemoryPartition false)
        [⟨[109], [], ⟨100, 0⟩⟩]).1 [⟨[109], [], ⟨0, 0⟩⟩]).2 =
      Except.ok [⟨[109], [], ⟨0, 0⟩⟩] ∧
    (insertRows 42 (insertRows 1 (newMemoryPartition false)
        [⟨[109], [], ⟨100, 0⟩⟩]).1 [⟨[109], [], ⟨0, 0⟩⟩]).1.metrics =
      (insertRows 1 (newMemoryPartition false)
        [⟨[109], [], ⟨100, 0⟩⟩]).1.metrics := by
  decide

/-- C6 (amended): a row with `Timestamp == 0` is stamped with the current
time and inserted into its series whenever the partition's (effective) min
timestamp is not positive — in particular always in the batch that fixes the
minimum, since that minimum is then at most 0. It is then not among the
outdated rows. When the min timestamp is positive, a later zero row is
classified outdated instead (see the counterexample). -/
theorem insertRows_zero_timestamp_stamped (now : Int) (m : memoryPartition)
    (rows : List Row) (r : Row) (hw : m.walFail = false) (hr : r ∈ rows)
    (h0 : r.point.timestamp = 0)
    (hmin : m.minTSet = false ∨ m.minT ≤ 0) :
    storedIn (insertRows now m rows).1.metrics
      (marshalMetricName r.metric r.labels) ⟨now, r.point.value⟩ ∧
    ∀ out, (insertRows now m rows).2 = Except.ok out → r ∉ out := by
  have hne : rows ≠ [] := fun h => by subst h; exact absurd hr (List.not_mem_nil r)
  have hnotlt : ¬ r.point.timestamp <
      (if m.minTSet = true then m.minT else batchMin rows) := by
    split
    · next hset =>
      rcases hmin with hmin | hmin
      · rw [hset] at hmin; cases hmin
      · omega
    · have := batchMin_le_mem hr
      omega
  rw [insertRows, if_neg hne, if_neg (by simp [hw])]
  constructor
  · dsimp only
    have := foldl_step_storedIn_of_mem
      (if m.minTSet = true then m.minT else batchMin rows) now rows
      ⟨m.metrics, [], (rows.headD default).point.timestamp, 0⟩ hr hnotlt
    rw [runBatch]
    have hstamp : stamp now r.point = ⟨now, r.point.value⟩ := by
      unfold stamp
      rw [if_pos h0]
    rwa [hstamp] at this
  · intro out hout hmem
    dsimp only at hout
    rw [runBatch, foldl_step_outdated] at hout
    simp only [List.nil_append, Except.ok.injEq] at hout
    subst hout
    have := (List.mem_filter.mp hmem).2
    simp only [decide_eq_true_eq] at this
    exact hnotlt this

/-- Witness for C6: a zero-timestamp row in the first batch of a fresh
partition is stamped with `now = 42` and inserted. -/
theorem insertRows_zero_timestamp_stamped_witness :
    ((newMemoryPartition false).walFail = false ∧
      (⟨[109], [], ⟨0, 5⟩⟩ : Row) ∈ [(⟨[109], [], ⟨0, 5⟩⟩ : Row)] ∧
      (⟨[109], [], ⟨0, 5⟩⟩ : Row).point.timestamp = 0 ∧
      ((newMemoryPartition false).minTSet = false ∨
        (newMemoryPartition false).minT ≤ 0)) ∧
    (storedIn (insertRows 42 (newMemoryPartition false)
        [⟨[109], [], ⟨0, 5⟩⟩]).1.metrics
      (marshalMetricName [109] []) ⟨42, 5⟩ ∧
    ∀ out, (insertRows 42 (newMemoryPartition false)
        [⟨[109], [], ⟨0, 5⟩⟩]).2 = Except.ok out →
      (⟨[109], [], ⟨0, 5⟩⟩ : Row) ∉ out) :=
  ⟨⟨by decide, by decide, by decide, by decide⟩,
    insertRows_zero_timestamp_stamped 42 (newMemoryPartition false)
      [⟨[109], [], ⟨0, 5⟩⟩] ⟨[109], [], ⟨0, 5⟩⟩ (by decide)
      (by decide) (by decide) (by decide)⟩

/-! ### Select machinery (claim C3) -/

/-- Non-decreasing timestamps. -/
def tsSorted (l : List DataPoint) : Prop :=
  List.Chain' (fun p q : DataPoint => p.timestamp ≤ q.timestamp) l

instance : IsTrans DataPoint (fun p q : DataPoint => p.timestamp ≤ q.timestamp) :=
  ⟨fun _ _ _ h1 h2 => le_trans h1 h2⟩

instance (l : List DataPoint) : Decidable (tsSorted l) :=
  inferInstanceAs (Decidable (List.Chain'
    (fun p q : DataPoint => p.timestamp ≤ q.timestamp) l))

/-- The select window predicate: `start ≤ ts < end`. -/
def inRange (s e : Int) (p : DataPoint) : Bool :=
  decide (s ≤ p.timestamp) && decide (p.timestamp < e)

/-- The well-formedness of a series reached through `insertPoint` only:
`size` is the in-order count, the in-order list is strictly increasing, and
the min/max counters frame it. -/
def metricWF (m : memoryMetric) : Prop :=
  m.size = (m.points.length : Int) ∧
  List.Chain' (fun p q : DataPoint => p.timestamp < q.timestamp) m.points ∧
  (m.points = [] ∨
    (m.minTimestamp = (m.points.headD default).timestamp ∧
     m.maxTimestamp = (m.points.getLastD default).timestamp))

/-- Boolean reflection of a strictly increasing timestamp chain (kernel
reducible, for concrete witnesses). -/
def chainLtB : List DataPoint → Bool
  | [] => true
  | [_] => true
  | p :: q :: t => decide (p.timestamp < q.timestamp) && chainLtB (q :: t)

theorem chainLtB_iff : ∀ (l : List DataPoint), chainLtB l = true ↔
    List.Chain' (fun p q : DataPoint => p.timestamp < q.timestamp) l
  | [] => by simp [chainLtB]
  | [x] => by simp [chainLtB]
  | p :: q :: t => by
    rw [chainLtB, Bool.and_eq_true, List.chain'_cons, chainLtB_iff (q :: t)]
    simp

/-- Boolean reflection of a non-decreasing timestamp chain. -/
def chainLeB : List DataPoint → Bool
  | [] => true
  | [_] => true
  | p :: q :: t => decide (p.timestamp ≤ q.timestamp) && chainLeB (q :: t)

theorem chainLeB_iff : ∀ (l : List DataPoint), chainLeB l = true ↔
    List.Chain' (fun p q : DataPoint => p.timestamp ≤ q.timestamp) l
  | [] => by simp [chainLeB]
  | [x] => by simp [chainLeB]
  | p :: q :: t => by
    rw [chainLeB, Bool.and_eq_true, List.chain'_cons, chainLeB_iff (q :: t)]
    simp

instance (m : memoryMetric) : Decidable (metricWF m) :=
  decidable_of_iff (m.size = (m.points.length : Int) ∧
    chainLtB m.points = true ∧
    (m.points = [] ∨
      (m.minTimestamp = (m.points.headD default).timestamp ∧
       m.maxTimestamp = (m.points.getLastD default).timestamp)))
    (by unfold metricWF; rw [chainLtB_iff])

theorem findIdx_map (g : α → β) (p : β → Bool) :
    ∀ l : List α, (l.map g).findIdx p = l.findIdx (fun x => p (g x))
  | [] => rfl
  | x :: t => by
    rw [List.map_cons, List.findIdx_cons, List.findIdx_cons, findIdx_map g p t]

theorem range_findIdx_getD [Inhabited α] (p : α → Bool) :
    ∀ l : List α,
    (List.range l.length).findIdx (fun i => p (l.getD i default)) =
      (l.takeWhile (fun x => ! p x)).length
  | [] => by simp
  | x :: t => by
    rw [List.length_cons, List.range_succ_eq_map, List.findIdx_cons]
    by_cases hx : p x
    · simp [hx, List.takeWhile_cons]
    · have step : ((List.range t.length).map (· + 1)).findIdx
          (fun i => p ((x :: t).getD i default)) =
          (List.range t.length).findIdx (fun i => p (t.getD i default)) := by
        rw [findIdx_map]
        simp only [List.getD_cons_succ]
      simp only [List.getD_cons_zero, hx, cond_false, step,
        range_findIdx_getD p t, List.takeWhile_cons, Bool.not_false, if_pos]
      simp [hx]

theorem take_length_takeWhile (p : α → Bool) :
    ∀ l : List α, l.take (l.takeWhile p).length = l.takeWhile p
  | [] => rfl
  | x :: t => by
    by_cases hx : p x
    · simp [List.takeWhile_cons, hx, take_length_takeWhile p t]
    · simp [List.takeWhile_cons, hx]

theorem drop_length_takeWhile (p : α → Bool) :
    ∀ l : List α, l.drop (l.takeWhile p).length = l.dropWhile p
  | [] => rfl
  | x :: t => by
    by_cases hx : p x
    · simp [List.takeWhile_cons, List.dropWhile_cons, hx,
        drop_length_takeWhile p t]
    · simp [List.takeWhile_cons, List.dropWhile_cons, hx]

theorem length_takeWhile_mono {p q : α → Bool}
    (h : ∀ x, p x = true → q x = true) :
    ∀ l : List α, (l.takeWhile p).length ≤ (l.takeWhile q).length
  | [] => le_refl _
  | x :: t => by
    by_cases hx : p x
    · simp only [List.takeWhile_cons, hx, h x hx, if_pos, List.length_cons]
      exact Nat.succ_le_succ (length_takeWhile_mono h t)
    · simp [List.takeWhile_cons, hx]

theorem takeWhile_of_takeWhile {p q : α → Bool}
    (h : ∀ x, p x = true → q x = true) (l : List α) :
    (l.takeWhile q).takeWhile p = l.takeWhile p := by
  rw [List.takeWhile_takeWhile]
  congr 1
  funext a
  by_cases ha : p a
  · simp [ha, h a ha]
  · simp [ha]

theorem tsSorted_cons_le {x : DataPoint} {t : List DataPoint}
    (hs : tsSorted (x :: t)) : ∀ p ∈ t, x.timestamp ≤ p.timestamp := by
  induction t generalizing x with
  | nil => intro p hp; cases hp
  | cons y t2 ih =>
    intro p hp
    have h1 := List.chain'_cons.mp hs
    rcases List.mem_cons.mp hp with rfl | hp2
    · exact h1.1
    · exact le_trans h1.1 (ih h1.2 p hp2)

theorem getLastD_cons_of_ne {l : List α} (x d : α) (h : l ≠ []) :
    (x :: l).getLastD d = l.getLastD d := by
  cases l with
  | nil => exact absurd rfl h
  | cons y t => rfl

theorem tsSorted_le_last {l : List DataPoint} (hs : tsSorted l) :
    ∀ p ∈ l, p.timestamp ≤ (l.getLastD default).timestamp := by
  induction l with
  | nil => intro p hp; cases hp
  | cons x t ih =>
    intro p hp
    cases t with
    | nil =>
      rcases List.mem_cons.mp hp with rfl | hp2
      · exact le_refl _
      · cases hp2
    | cons y t2 =>
      have h1 := List.chain'_cons.mp hs
      rw [getLastD_cons_of_ne x default (by simp)]
      rcases List.mem_cons.mp hp with rfl | hp2
      · exact le_trans h1.1 (ih h1.2 y (List.mem_cons_self ..))
      · exact ih h1.2 p hp2

theorem takeWhile_eq_filter_lt {l : List DataPoint} (hs : tsSorted l)
    (c : Int) :
    l.takeWhile (fun p => decide (p.timestamp < c)) =
      l.filter (fun p => decide (p.timestamp < c)) := by
  induction l with
  | nil => rfl
  | cons x t ih =>
    by_cases hx : x.timestamp < c
    · rw [List.takeWhile_cons, List.filter_cons, if_pos (by simpa using hx),
        if_pos (by simpa using hx), ih hs.tail]
    · rw [List.takeWhile_cons, List.filter_cons, if_neg (by simpa using hx),
        if_neg (by simpa using hx)]
      symm
      refine List.filter_eq_nil_iff.mpr ?_
      intro y hy
      have h2 := tsSorted_cons_le hs y hy
      simp only [decide_eq_true_eq]
      omega

theorem dropWhile_eq_filter_ge {l : List DataPoint} (hs : tsSorted l)
    (c : Int) :
    l.dropWhile (fun p => decide (p.timestamp < c)) =
      l.filter (fun p => decide (c ≤ p.timestamp)) := by
  induction l with
  | nil => rfl
  | cons x t ih =>
    by_cases hx : x.timestamp < c
    · rw [List.dropWhile_cons, List.filter_cons, if_pos (by simpa using hx),
        if_neg (by simp only [decide_eq_true_eq]; omega), ih hs.tail]
    · rw [List.dropWhile_cons, List.filter_cons, if_neg (by simpa using hx),
        if_pos (by simp only [decide_eq_true_eq]; omega)]
      refine congrArg (x :: ·) ?_
      symm
      refine List.filter_eq_self.mpr ?_
      intro y hy
      have h2 := tsSorted_cons_le hs y hy
      simp only [decide_eq_true_eq]
      omega

theorem tsSorted_head_le {l : List DataPoint} (hs : tsSorted l) :
    ∀ p ∈ l, (l.headD default).timestamp ≤ p.timestamp := by
  cases l with
  | nil => intro p hp; cases hp
  | cons x t =>
    intro p hp
    rcases List.mem_cons.mp hp with rfl | hp2
    · exact le_refl _
    · exact tsSorted_cons_le hs p hp2

theorem selectPoints_eq_filter {m : memoryMetric} (hwf : metricWF m)
    {s e : Int} (hse : s ≤ e) :
    selectPoints m s e = some (m.points.filter (inRange s e)) := by
  obtain ⟨hsize, hchain, hframe⟩ := hwf
  have hsorted : tsSorted m.points :=
    hchain.imp (fun _ _ h => le_of_lt h)
  rcases hframe with hpts | ⟨hmin, hmax⟩
  · have hsz0 : m.size = 0 := by rw [hsize, hpts]; rfl
    unfold selectPoints sortSearch
    rw [hpts, hsz0]
    split_ifs <;> simp
  · have hn : m.size.toNat = m.points.length := by
      rw [hsize]
      exact Int.toNat_natCast _
    by_cases hend : e ≤ m.minTimestamp
    · rw [selectPoints, if_pos hend]
      symm
      rw [Option.some_inj]
      refine List.filter_eq_nil_iff.mpr ?_
      intro p hp
      have := tsSorted_head_le hsorted p hp
      rw [hmin] at hend
      simp only [inRange, Bool.and_eq_true, decide_eq_true_eq, not_and]
      omega
    · rw [selectPoints, if_neg hend]
      dsimp only
      have himp : ∀ x : DataPoint, decide (x.timestamp < s) = true →
          decide (x.timestamp < e) = true := by
        intro x hx
        simp only [decide_eq_true_eq] at *
        omega
      have hstart : (if s ≤ m.minTimestamp then 0
          else sortSearch m.size.toNat
            (fun i => decide (s ≤ (m.points.getD i default).timestamp))) =
          (m.points.takeWhile (fun p => decide (p.timestamp < s))).length := by
        split
        · next hsm =>
          symm
          rw [List.length_eq_zero]
          cases hp : m.points with
          | nil => rfl
          | cons x t =>
            rw [List.takeWhile_cons, if_neg]
            simp only [decide_eq_true_eq, not_lt]
            rw [hmin, hp] at hsm
            simpa using hsm
        · have hpred : (fun x : DataPoint => ! decide (s ≤ x.timestamp)) =
              (fun p : DataPoint => decide (p.timestamp < s)) := by
            funext x
            by_cases hx : s ≤ x.timestamp
            · simp [hx, show ¬ x.timestamp < s by omega]
            · simp [hx, show x.timestamp < s by omega]
          rw [hn, sortSearch,
            range_findIdx_getD (fun x : DataPoint => decide (s ≤ x.timestamp)),
            hpred]
      have hendIdx : (if m.maxTimestamp < e then m.size.toNat
          else sortSearch m.size.toNat
            (fun i => decide (e ≤ (m.points.getD i default).timestamp))) =
          (m.points.takeWhile (fun p => decide (p.timestamp < e))).length := by
        split
        · next hme =>
          rw [hn]
          symm
          rw [takeWhile_eq_filter_lt hsorted e]
          refine congrArg List.length ?_
          refine List.filter_eq_self.mpr ?_
          intro p hp
          have := tsSorted_le_last hsorted p hp
          rw [hmax] at hme
          simp only [decide_eq_true_eq]
          omega
        · have hpred : (fun x : DataPoint => ! decide (e ≤ x.timestamp)) =
              (fun p : DataPoint => decide (p.timestamp < e)) := by
            funext x
            by_cases hx : e ≤ x.timestamp
            · simp [hx, show ¬ x.timestamp < e by omega]
            · simp [hx, show x.timestamp < e by omega]
          rw [hn, sortSearch,
            range_findIdx_getD (fun x : DataPoint => decide (e ≤ x.timestamp)),
            hpred]
      rw [hstart, hendIdx, if_pos]
      · rw [Option.some_inj, take_length_takeWhile,
          ← takeWhile_of_takeWhile himp m.points, drop_length_takeWhile]
        rw [dropWhile_eq_filter_ge
          (hsorted.sublist (List.takeWhile_sublist _)) s,
          takeWhile_eq_filter_lt hsorted e, List.filter_filter]
        rfl
      · constructor
        · exact length_takeWhile_mono himp m.points
        · exact (List.takeWhile_sublist _).length_le

/-! ### Claim C3 -/

/-- C3, as stated ("for every query range"), is false: with the series
`[1, 2, 3]` and the reversed range `start = 3, end = 2`, the binary searches
give `startIdx = 2 > 1 = endIdx` and the Go re-slice
`points[startIdx:endIdx]` panics (modelled as `none`) instead of returning
the empty filtered result. -/
theorem selectDataPoints_reversed_range_none :
    (selectDataPoints (insertRows 1 (newMemoryPartition false)
        [⟨[109], [], ⟨1, 0⟩⟩, ⟨[109], [], ⟨2, 0⟩⟩, ⟨[109], [], ⟨3, 0⟩⟩]).1
      [109] [] 3 2).2 = none ∧
    ((lookupMetric (insertRows 1 (newMemoryPartition false)
        [⟨[109], [], ⟨1, 0⟩⟩, ⟨[109], [], ⟨2, 0⟩⟩, ⟨[109], [], ⟨3, 0⟩⟩]).1
      (marshalMetricName [109] [])).points.filter (inRange 3 2)) = [] := by
  decide

/-- C3 (amended): for every well-formed series and every query range with
`start ≤ end`, `selectDataPoints` returns exactly the points of that
series' in-order list whose timestamp satisfies `start ≤ t < end`, in list
(hence non-decreasing timestamp) order; the out-of-order list is never
consulted. For `start > end` the Go re-slice can panic instead. -/
theorem selectDataPoints_filter_of_le (mp : memoryPartition)
    (metric : List Nat) (labels : List Label) (s e : Int)
    (hwf : ∀ x ∈ mp.metrics, metricWF x.2) (hse : s ≤ e) :
    (selectDataPoints mp metric labels s e).2 =
      some ((lookupMetric mp (marshalMetricName metric labels)).points.filter
        (inRange s e)) := by
  rcases hfind : mp.metrics.find?
      (fun x => x.1 = marshalMetricName metric labels) with _ | x
  · simp only [selectDataPoints, lookupMetric, hfind]
    refine selectPoints_eq_filter ?_ hse
    refine ⟨by simp [freshMetric], ?_, Or.inl rfl⟩
    simp [freshMetric]
  · simp only [selectDataPoints, lookupMetric, hfind]
    exact selectPoints_eq_filter (hwf x (List.mem_of_find?_eq_some hfind)) hse

/-- Witness for C3 on a concretely built partition and the range `[1, 4)`. -/
theorem selectDataPoints_filter_of_le_witness :
    ((∀ x ∈ (insertRows 1 (newMemoryPartition false)
        [⟨[109], [], ⟨1, 2⟩⟩, ⟨[109], [], ⟨2, 3⟩⟩]).1.metrics, metricWF x.2) ∧
      (1 : Int) ≤ 4) ∧
    (selectDataPoints (insertRows 1 (newMemoryPartition false)
        [⟨[109], [], ⟨1, 2⟩⟩, ⟨[109], [], ⟨2, 3⟩⟩]).1 [109] [] 1 4).2 =
      some ((lookupMetric (insertRows 1 (newMemoryPartition false)
          [⟨[109], [], ⟨1, 2⟩⟩, ⟨[109], [], ⟨2, 3⟩⟩]).1
        (marshalMetricName [109] [])).points.filter (inRange 1 4)) :=
  ⟨⟨by decide, by decide⟩,
    selectDataPoints_filter_of_le _ [109] [] 1 4 (by decide) (by decide)⟩

/-! ### Claim C2 -/

theorem insertRows_preserves_lb {m : memoryPartition} (now : Int)
    (rows : List Row) (hset : m.minTSet = true)
    (hlb : storedLB m.metrics m.minT) (hnow : 0 ≤ now) :
    (insertRows now m rows).1.minTSet = true ∧
    (insertRows now m rows).1.minT = m.minT ∧
    storedLB (insertRows now m rows).1.metrics m.minT := by
  by_cases hne : rows = []
  · rw [insertRows, if_pos hne]
    exact ⟨hset, rfl, hlb⟩
  · by_cases hw : m.walFail = true
    · rw [insertRows, if_neg hne, if_pos hw]
      exact ⟨hset, rfl, hlb⟩
    · rw [insertRows, if_neg hne, if_neg hw]
      refine ⟨rfl, ?_, ?_⟩
      · dsimp only
        rw [if_pos hset]
      · dsimp only
        rw [if_pos hset, runBatch]
        exact foldl_step_storedLB hnow rows _ hlb

theorem applyBatches_preserves_lb :
    ∀ (bs : List (Int × List Row)) {m : memoryPartition},
    m.minTSet = true → storedLB m.metrics m.minT → (∀ b ∈ bs, 0 ≤ b.1) →
    (applyBatches m bs).minTSet = true ∧
    (applyBatches m bs).minT = m.minT ∧
    storedLB (applyBatches m bs).metrics m.minT
  | [], _, h1, h2, _ => ⟨h1, rfl, h2⟩
  | b :: bs, m, h1, h2, hb => by
    obtain ⟨g1, g2, g3⟩ := insertRows_preserves_lb b.1 b.2 h1 h2
      (hb b (List.mem_cons_self ..))
    have grec := applyBatches_preserves_lb bs g1 (by rw [g2]; exact g3)
      (fun x hx => hb x (List.mem_cons_of_mem _ hx))
    refine ⟨grec.1, ?_, ?_⟩
    · rw [applyBatches]
      rw [grec.2.1, g2]
    · rw [applyBatches]
      rw [g2] at grec
      exact grec.2.2

theorem selectPoints_subset {m : memoryMetric} {s e : Int}
    {ps : List DataPoint} (h : selectPoints m s e = some ps) :
    ∀ p ∈ ps, p ∈ m.points := by
  unfold selectPoints at h
  split at h
  · rw [Option.some_inj] at h
    subst h
    intro p hp
    cases hp
  · dsimp only at h
    split at h <;> split at h <;> split at h <;>
      first
      | (rw [Option.some_inj] at h
         subst h
         intro p hp
         exact List.mem_of_mem_take (List.mem_of_mem_drop hp))
      | cases h

theorem selectDataPoints_subset {mp : memoryPartition} {metric : List Nat}
    {labels : List Label} {s e : Int} {ps : List DataPoint}
    (h : (selectDataPoints mp metric labels s e).2 = some ps) :
    ∀ p ∈ ps, ∃ x ∈ mp.metrics, p ∈ x.2.points := by
  rcases hfind : mp.metrics.find?
      (fun x => x.1 = marshalMetricName metric labels) with _ | x
  · simp only [selectDataPoints, hfind] at h
    intro p hp
    have := selectPoints_subset h p hp
    simp [freshMetric] at this
  · simp only [selectDataPoints, hfind] at h
    intro p hp
    exact ⟨x, List.mem_of_find?_eq_some hfind, selectPoints_subset h p hp⟩

/-- C2: outdated rows. In a memory partition whose min timestamp was fixed
by its first `insertRows` call, a row of a later batch whose timestamp is
strictly below that minimum is returned in the outdated rows, is not
inserted into any series, and — under non-negative clock readings — is never
returned by `selectDataPoints` after any further batches on that
partition. -/
theorem insertRows_outdated_spec (now : Int) (m : memoryPartition)
    (rows : List Row) (r : Row) (bs : List (Int × List Row))
    (metric : List Nat) (labels : List Label) (s e : Int)
    (hwal : m.walFail = false) (hset : m.minTSet = true)
    (hlb : storedLB m.metrics m.minT)
    (hnow : 0 ≤ now) (hbs : ∀ b ∈ bs, 0 ≤ b.1)
    (hr : r ∈ rows) (hts : r.point.timestamp < m.minT) :
    (∃ out, (insertRows now m rows).2 = Except.ok out ∧ r ∈ out) ∧
    (∀ x ∈ (insertRows now m rows).1.metrics,
      r.point ∉ x.2.points ∧ r.point ∉ x.2.outOfOrderPoints) ∧
    (∀ ps, (selectDataPoints (applyBatches (insertRows now m rows).1 bs)
        metric labels s e).2 = some ps → r.point ∉ ps) := by
  have hne : rows ≠ [] := fun h => by
    subst h; exact absurd hr (List.not_mem_nil r)
  obtain ⟨g1, g2, g3⟩ := insertRows_preserves_lb now rows hset hlb hnow
  refine ⟨?_, ?_, ?_⟩
  · refine ⟨(runBatch m.minT now m.metrics rows).outdated, ?_, ?_⟩
    · rw [insertRows, if_neg hne, if_neg (by simp [hwal])]
      simp only [hset, eq_self_iff_true, if_true]
    · rw [runBatch, foldl_step_outdated, List.nil_append]
      refine List.mem_filter.mpr ⟨hr, ?_⟩
      simpa using hts
  · intro x hx
    have hb := g3 x hx
    constructor
    · intro hmem
      have := hb.1 r.point hmem
      omega
    · intro hmem
      have := hb.2 r.point hmem
      omega
  · intro ps hps p_mem
    obtain ⟨h1, h2, h3⟩ := applyBatches_preserves_lb bs g1 (by rw [g2]; exact g3) hbs
    obtain ⟨x, hx, hpx⟩ := selectDataPoints_subset hps r.point p_mem
    have := (h3 x hx).1 r.point hpx
    rw [g2] at this
    omega

/-- Witness for C2 on a partition with min timestamp 100 and a later row
with timestamp 50. -/
theorem insertRows_outdated_spec_witness :
    ((insertRows 1 (newMemoryPartition false)
        [⟨[109], [], ⟨100, 0⟩⟩]).1.walFail = false ∧
      (insertRows 1 (newMemoryPartition false)
        [⟨[109], [], ⟨100, 0⟩⟩]).1.minTSet = true ∧
      storedLB (insertRows 1 (newMemoryPartition false)
          [⟨[109], [], ⟨100, 0⟩⟩]).1.metrics
        (insertRows 1 (newMemoryPartition false)
          [⟨[109], [], ⟨100, 0⟩⟩]).1.minT ∧
      (0 : Int) ≤ 2 ∧
      (∀ b ∈ [((3 : Int), [(⟨[109], [], ⟨200, 7⟩⟩ : Row)])], 0 ≤ b.1) ∧
      (⟨[109], [], ⟨50, 9⟩⟩ : Row) ∈ [(⟨[109], [], ⟨50, 9⟩⟩ : Row)] ∧
      (⟨[109], [], ⟨50, 9⟩⟩ : Row).point.timestamp <
        (insertRows 1 (newMemoryPartition false)
          [⟨[109], [], ⟨100, 0⟩⟩]).1.minT) ∧
    ((∃ out, (insertRows 2 (insertRows 1 (newMemoryPartition false)
          [⟨[109], [], ⟨100, 0⟩⟩]).1 [⟨[109], [], ⟨50, 9⟩⟩]).2 =
        Except.ok out ∧ (⟨[109], [], ⟨50, 9⟩⟩ : Row) ∈ out) ∧
      (∀ x ∈ (insertRows 2 (insertRows 1 (newMemoryPartition false)
          [⟨[109], [], ⟨100, 0⟩⟩]).1 [⟨[109], [], ⟨50, 9⟩⟩]).1.metrics,
        (⟨50, 9⟩ : DataPoint) ∉ x.2.points ∧
          (⟨50, 9⟩ : DataPoint) ∉ x.2.outOfOrderPoints) ∧
      (∀ ps, (selectDataPoints (applyBatches
          (insertRows 2 (insertRows 1 (newMemoryPartition false)
            [⟨[109], [], ⟨100, 0⟩⟩]).1 [⟨[109], [], ⟨50, 9⟩⟩]).1
          [((3 : Int), [(⟨[109], [], ⟨200, 7⟩⟩ : Row)])])
          [109] [] 0 1000).2 = some ps → (⟨50, 9⟩ : DataPoint) ∉ ps)) :=
  ⟨⟨by decide, by decide, by decide, by decide, by decide, by decide,
      by decide⟩,
    insertRows_outdated_spec 2 (insertRows 1 (newMemoryPartition false)
        [⟨[109], [], ⟨100, 0⟩⟩]).1 [⟨[109], [], ⟨50, 9⟩⟩]
      ⟨[109], [], ⟨50, 9⟩⟩ [((3 : Int), [(⟨[109], [], ⟨200, 7⟩⟩ : Row)])]
      [109] [] 0 1000 (by decide) (by decide) (by decide) (by decide)
      (by decide) (by decide) (by decide)⟩

/-! ## Partition list (claim C8, `partition_list.go` — src/unnamed/part_000)

The linked list of partition nodes is modelled as the list of its
partitions, head first; the `numPartitions` counter is kept separate, as in
the source. Partitions are abstracted to what `remove` consumes: the min
timestamp (the only field `samePartitions` compares), an identifier
standing for the rest of the partition, and the outcome of its `clean()`
method — `none` for a nil error (memory partitions always, disk partitions
usually), `some msg` for a failing clean (a disk partition whose
munmap/close/removal fails). -/

/-- An abstract partition for the list operations. -/
structure Part where
  minT : Int
  id : Nat
  cleanErr : Option String
deriving DecidableEq

/-- `samePartitions` compares only the min timestamps. -/
def samePartitions (x y : Part) : Prop := x.minT = y.minT

instance (x y : Part) : Decidable (samePartitions x y) :=
  inferInstanceAs (Decidable (x.minT = y.minT))

/-- The partition list: the `numPartitions` counter and the chain of nodes
from head to tail. -/
structure partitionListImpl where
  numPartitions : Int
  parts : List Part
deriving DecidableEq

/-- The scan of `remove`: find the first node matching the target (by
`samePartitions`), returning the nodes before it, the matched partition and
the nodes after it. -/
def removeScan : List Part → Part → Option (List Part × Part × List Part)
  | [], _ => none
  | c :: rest, t =>
    if samePartitions c t then some ([], c, rest)
    else (removeScan rest t).map (fun x => (c :: x.1, x.2.1, x.2.2))

/-- `partitionListImpl.remove`, state-passing (Go mutates the receiver in
place): error on an empty list (the counter check) or when no node matches;
otherwise unlink the first matching node (relinking the predecessor,
updating head/tail as needed — in the list model, dropping the node),
decrement the counter, and call `clean()` on the removed partition; a
failing `clean` surfaces as a wrapped error after the unlink and the
decrement. The result is the list after the call, the partition `clean()`
was invoked on (`none` when the scan never matched), and the function's
return value. -/
def removeGo (p : partitionListImpl) (target : Part) :
    partitionListImpl × Option Part × Except String Unit :=
  if p.numPartitions ≤ 0 then (p, none, .error "empty partition")
  else
    match removeScan p.parts target with
    | none => (p, none, .error "the given partition was not found")
    | some x =>
      (⟨p.numPartitions - 1, x.1 ++ x.2.2⟩, some x.2.1,
        match x.2.1.cleanErr with
        | some e => .error
            ("failed to clean resources managed by partition to be removed: "
              ++ e)
        | none => .ok ())

theorem removeScan_none_iff : ∀ (l : List Part) (t : Part),
    removeScan l t = none ↔ ∀ q ∈ l, q.minT ≠ t.minT
  | [], t => by simp [removeScan]
  | c :: rest, t => by
    rw [removeScan]
    by_cases hc : samePartitions c t
    · simp only [hc, if_pos]
      constructor
      · intro h; cases h
      · intro h
        exact absurd hc (h c (List.mem_cons_self ..))
    · rw [if_neg hc]
      simp only [Option.map_eq_none', removeScan_none_iff rest t,
        List.mem_cons]
      constructor
      · intro h q hq
        rcases hq with rfl | hq
        · exact hc
        · exact h q hq
      · intro h q hq
        exact h q (Or.inr hq)

theorem removeScan_some : ∀ (l : List Part) (t : Part) (pre : List Part)
    (cur : Part) (post : List Part),
    removeScan l t = some (pre, cur, post) →
    l = pre ++ cur :: post ∧ (∀ q ∈ pre, q.minT ≠ t.minT) ∧
      cur.minT = t.minT
  | [], _, _, _, _, h => by cases h
  | c :: rest, t, pre, cur, post, h => by
    rw [removeScan] at h
    by_cases hc : samePartitions c t
    · rw [if_pos hc, Option.some_inj] at h
      have h1 : [] = pre := congrArg Prod.fst h
      have h2 : c = cur := congrArg (fun x => x.2.1) h
      have h3 : rest = post := congrArg (fun x => x.2.2) h
      subst h1; subst h2; subst h3
      exact ⟨rfl, fun q hq => absurd hq (List.not_mem_nil q), hc⟩
    · rw [if_neg hc] at h
      rcases hscan : removeScan rest t with _ | y
      · rw [hscan] at h; cases h
      · rw [hscan, Option.map_some'] at h
        rw [Option.some_inj] at h
        have h1 : pre = c :: y.1 := (congrArg Prod.fst h).symm
        have h2 : cur = y.2.1 := (congrArg (fun x => x.2.1) h).symm
        have h3 : post = y.2.2 := (congrArg (fun x => x.2.2) h).symm
        obtain ⟨g1, g2, g3⟩ := removeScan_some rest t y.1 y.2.1 y.2.2
          (by rw [hscan])
        subst h1; subst h2; subst h3
        refine ⟨by rw [List.cons_append, ← g1], ?_, g3⟩
        intro q hq
        rcases List.mem_cons.mp hq with rfl | hq
        · exact hc
        · exact g2 q hq

theorem removeScan_complete : ∀ (pre : List Part) (cur : Part)
    (post : List Part) (t : Part),
    (∀ q ∈ pre, q.minT ≠ t.minT) → cur.minT = t.minT →
    removeScan (pre ++ cur :: post) t = some (pre, cur, post)
  | [], cur, post, t, _, hc => by
    rw [List.nil_append, removeScan,
      if_pos (show samePartitions cur t from hc)]
  | q :: pre, cur, post, t, hpre, hc => by
    rw [List.cons_append, removeScan,
      if_neg (show ¬ samePartitions q t from hpre q (List.mem_cons_self ..)),
      removeScan_complete pre cur post t
        (fun r hr => hpre r (List.mem_cons_of_mem _ hr)) hc,
      Option.map_some']

/-- C8: `remove(target)` errors when the list is empty or when no node's
partition has `minTimestamp` equal to the target's (`samePartitions`
compares nothing else), leaving the list unchanged and cleaning nothing;
otherwise it unlinks the first matching node (the remaining chain is the
nodes before it followed by the nodes after it, which also covers the
head/tail updates), decrements `numPartitions` by one, and calls `clean()`
on that first match — returning nil when the clean succeeds, and
surfacing a failing clean as a wrapped error after the unlink and the
decrement have already happened. -/
theorem partitionList_remove_spec (p : partitionListImpl) (target : Part)
    (hinv : p.numPartitions = (p.parts.length : Int)) :
    ((p.parts = [] ∨ ∀ q ∈ p.parts, q.minT ≠ target.minT) →
      ∃ msg, removeGo p target = (p, none, .error msg)) ∧
    (∀ pre cur post, p.parts = pre ++ cur :: post →
      (∀ q ∈ pre, q.minT ≠ target.minT) → cur.minT = target.minT →
      removeGo p target =
        (⟨p.numPartitions - 1, pre ++ post⟩, some cur,
          match cur.cleanErr with
          | some e => .error
              ("failed to clean resources managed by partition to be removed: "
                ++ e)
          | none => .ok ())) := by
  constructor
  · intro h
    rw [removeGo]
    rcases h with h | h
    · rw [if_pos (by rw [hinv, h]; rfl)]
      exact ⟨"empty partition", rfl⟩
    · split
      · exact ⟨"empty partition", rfl⟩
      · rw [(removeScan_none_iff p.parts target).mpr h]
        exact ⟨"the given partition was not found", rfl⟩
  · intro pre cur post hdec hpre hcur
    rw [removeGo,
      if_neg (by rw [hinv, hdec]; simp [List.length_append]; omega),
      hdec, removeScan_complete pre cur post target hpre hcur]

/-- Witness for C8: removing the middle of three partitions (its `clean`
failing), and the error case on a target no partition matches. -/
theorem partitionList_remove_spec_witness :
    ((⟨3, [⟨30, 0, none⟩, ⟨20, 1, some "mmap"⟩, ⟨10, 2, none⟩]⟩ :
        partitionListImpl).numPartitions =
      (([⟨30, 0, none⟩, ⟨20, 1, some "mmap"⟩, ⟨10, 2, none⟩] :
        List Part).length : Int)) ∧
    ((([⟨30, 0, none⟩, ⟨20, 1, some "mmap"⟩, ⟨10, 2, none⟩] :
        List Part) = [] ∨
      ∀ q ∈ ([⟨30, 0, none⟩, ⟨20, 1, some "mmap"⟩, ⟨10, 2, none⟩] :
          List Part), q.minT ≠ (⟨20, 7, none⟩ : Part).minT) →
      ∃ msg, removeGo ⟨3, [⟨30, 0, none⟩, ⟨20, 1, some "mmap"⟩,
        ⟨10, 2, none⟩]⟩ ⟨20, 7, none⟩ =
        (⟨3, [⟨30, 0, none⟩, ⟨20, 1, some "mmap"⟩, ⟨10, 2, none⟩]⟩, none,
          .error msg)) ∧
    (∀ pre cur post,
      ([⟨30, 0, none⟩, ⟨20, 1, some "mmap"⟩, ⟨10, 2, none⟩] : List Part) =
        pre ++ cur :: post →
      (∀ q ∈ pre, q.minT ≠ (⟨20, 7, none⟩ : Part).minT) →
      cur.minT = (⟨20, 7, none⟩ : Part).minT →
      removeGo ⟨3, [⟨30, 0, none⟩, ⟨20, 1, some "mmap"⟩, ⟨10, 2, none⟩]⟩
          ⟨20, 7, none⟩ =
        (⟨(3 : Int) - 1, pre ++ post⟩, some cur,
          match cur.cleanErr with
          | some e => .error
              ("failed to clean resources managed by partition to be removed: "
                ++ e)
          | none => .ok ())) :=
  ⟨by decide,
    partitionList_remove_spec
      ⟨3, [⟨30, 0, none⟩, ⟨20, 1, some "mmap"⟩, ⟨10, 2, none⟩]⟩
      ⟨20, 7, none⟩ (by decide)⟩

/-! ## Flush merge (claim C9, `memoryMetric.encodeAllPoints`)

The `seriesEncoder` is abstracted to a function from points to success or
error; `encodeAllPoints` sorts the out-of-order points, two-pointer merges
them with the in-order list (the in-order point goes first on timestamp
ties, since the loop takes the out-of-order one only when strictly
smaller), and feeds the merged sequence to the encoder, stopping at the
first error — the merged sequence is factored out as `mergeSeq` so the
claim can speak about what the encoder is fed. -/

/-- The comparator of `sort.Slice` on `outOfOrderPoints` (by timestamp; the
Go sort is unstable among equal timestamps, the embedding fixes insertion
sort over the reflexive closure). -/
def pointLe (a b : DataPoint) : Prop := a.timestamp ≤ b.timestamp

instance : DecidableRel pointLe :=
  fun a b => inferInstanceAs (Decidable (a.timestamp ≤ b.timestamp))

instance : IsTotal DataPoint pointLe := ⟨fun a b => le_total a.timestamp b.timestamp⟩

instance : IsTrans DataPoint pointLe := ⟨fun _ _ _ h1 h2 => le_trans h1 h2⟩

/-- The `sort.Slice` call at the top of `encodeAllPoints`. -/
def sortPoints (l : List DataPoint) : List DataPoint :=
  List.insertionSort pointLe l

/-- The sequence of points the two-pointer loop feeds the encoder: merge of
the (sorted) out-of-order points with the in-order points, the out-of-order
point taken only when strictly older, then the drain loops. -/
def mergeSeq : List DataPoint → List DataPoint → List DataPoint
  | [], ps => ps
  | o :: os, [] => o :: os
  | o :: os, p :: ps =>
    if o.timestamp < p.timestamp then o :: mergeSeq os (p :: ps)
    else p :: mergeSeq (o :: os) ps
  termination_by os ps => os.length + ps.length

/-- Feeding a sequence of points to the encoder, stopping at the first
error (the early `return err` of the loops). -/
def encodeSeq (enc : DataPoint → Except String Unit) :
    List DataPoint → Except String Unit
  | [] => .ok ()
  | p :: ps =>
    match enc p with
    | .error e => .error e
    | .ok _ => encodeSeq enc ps

/-- `memoryMetric.encodeAllPoints` with an abstract encoder. -/
def encodeAllPoints (enc : DataPoint → Except String Unit)
    (m : memoryMetric) : Except String Unit :=
  encodeSeq enc (mergeSeq (sortPoints m.outOfOrderPoints) m.points)

theorem mergeSeq_perm : ∀ (os ps : List DataPoint),
    (mergeSeq os ps).Perm (os ++ ps)
  | [], ps => by rw [mergeSeq]; exact (List.nil_append ps) ▸ List.Perm.refl ps
  | o :: os, [] => by
    rw [mergeSeq, List.append_nil]
  | o :: os, p :: ps => by
    rw [mergeSeq]
    split
    · exact ((mergeSeq_perm os (p :: ps)).cons o)
    · refine ((mergeSeq_perm (o :: os) ps).cons p).trans ?_
      exact List.perm_middle.symm
  termination_by os ps => os.length + ps.length

theorem mergeSeq_mem {y : DataPoint} {os ps : List DataPoint}
    (h : y ∈ mergeSeq os ps) : y ∈ os ∨ y ∈ ps := by
  have := (mergeSeq_perm os ps).subset h
  exact List.mem_append.mp this

theorem mergeSeq_sorted : ∀ (os ps : List DataPoint),
    List.Chain' (fun p q : DataPoint => p.timestamp ≤ q.timestamp) os →
    List.Chain' (fun p q : DataPoint => p.timestamp ≤ q.timestamp) ps →
    List.Chain' (fun p q : DataPoint => p.timestamp ≤ q.timestamp)
      (mergeSeq os ps)
  | [], ps, _, hps => by rw [mergeSeq]; exact hps
  | o :: os, [], hos, _ => by rw [mergeSeq]; exact hos
  | o :: os, p :: ps, hos, hps => by
    rw [mergeSeq]
    split
    · next hop =>
      rw [List.chain'_cons']
      constructor
      · intro y hy
        have hmem := mergeSeq_mem (List.mem_of_mem_head? hy)
        rcases hmem with hm | hm
        · exact tsSorted_cons_le hos y hm
        · rcases List.mem_cons.mp hm with rfl | hm
          · exact le_of_lt hop
          · exact le_trans (le_of_lt hop) (tsSorted_cons_le hps y hm)
      · exact mergeSeq_sorted os (p :: ps) hos.tail hps
    · next hop =>
      rw [List.chain'_cons']
      constructor
      · intro y hy
        have hmem := mergeSeq_mem (List.mem_of_mem_head? hy)
        rcases hmem with hm | hm
        · rcases List.mem_cons.mp hm with rfl | hm
          · omega
          · exact le_trans (by omega) (tsSorted_cons_le hos y hm)
        · exact tsSorted_cons_le hps y hm
      · exact mergeSeq_sorted (o :: os) ps hos hps.tail
  termination_by os ps => os.length + ps.length

theorem encodeSeq_ok (enc : DataPoint → Except String Unit)
    (henc : ∀ p, enc p = .ok ()) :
    ∀ l : List DataPoint, encodeSeq enc l = .ok ()
  | [] => rfl
  | p :: ps => by
    rw [encodeSeq, henc p]
    exact encodeSeq_ok enc henc ps

/-- C9: flush merge. For a series whose in-order list is non-decreasing by
timestamp, the sequence `encodeAllPoints` feeds the encoder (`mergeSeq` of
the sorted out-of-order points with the in-order points) is a permutation
of the in-order points together with the out-of-order points, it is
non-decreasing by timestamp, and when every `encodePoint` call succeeds
`encodeAllPoints` returns without error. -/
theorem encodeAllPoints_merge_spec (m : memoryMetric)
    (enc : DataPoint → Except String Unit)
    (hs : List.Chain' (fun p q : DataPoint => p.timestamp ≤ q.timestamp)
      m.points) :
    (mergeSeq (sortPoints m.outOfOrderPoints) m.points).Perm
      (m.points ++ m.outOfOrderPoints) ∧
    List.Chain' (fun p q : DataPoint => p.timestamp ≤ q.timestamp)
      (mergeSeq (sortPoints m.outOfOrderPoints) m.points) ∧
    ((∀ p, enc p = .ok ()) → encodeAllPoints enc m = .ok ()) := by
  refine ⟨?_, ?_, ?_⟩
  · refine (mergeSeq_perm _ _).trans ?_
    refine (List.Perm.append ?_ (List.Perm.refl m.points)).trans
      List.perm_append_comm
    exact List.perm_insertionSort pointLe m.outOfOrderPoints
  · refine mergeSeq_sorted _ _ ?_ hs
    exact (List.sorted_insertionSort pointLe m.outOfOrderPoints).chain'
  · intro henc
    exact encodeSeq_ok enc henc _

/-- Witness for C9 on a concrete series with out-of-order points and an
always-succeeding encoder. -/
theorem encodeAllPoints_merge_spec_witness :
    List.Chain' (fun p q : DataPoint => p.timestamp ≤ q.timestamp)
      (⟨[109], 2, 1, 5, [⟨1, 0⟩, ⟨5, 0⟩], [⟨3, 0⟩]⟩ :
        memoryMetric).points ∧
    ((mergeSeq (sortPoints (⟨[109], 2, 1, 5, [⟨1, 0⟩, ⟨5, 0⟩],
          [⟨3, 0⟩]⟩ : memoryMetric).outOfOrderPoints)
        (⟨[109], 2, 1, 5, [⟨1, 0⟩, ⟨5, 0⟩], [⟨3, 0⟩]⟩ :
          memoryMetric).points).Perm
      ((⟨[109], 2, 1, 5, [⟨1, 0⟩, ⟨5, 0⟩], [⟨3, 0⟩]⟩ :
          memoryMetric).points ++
        (⟨[109], 2, 1, 5, [⟨1, 0⟩, ⟨5, 0⟩], [⟨3, 0⟩]⟩ :
          memoryMetric).outOfOrderPoints) ∧
    List.Chain' (fun p q : DataPoint => p.timestamp ≤ q.timestamp)
      (mergeSeq (sortPoints (⟨[109], 2, 1, 5, [⟨1, 0⟩, ⟨5, 0⟩],
          [⟨3, 0⟩]⟩ : memoryMetric).outOfOrderPoints)
        (⟨[109], 2, 1, 5, [⟨1, 0⟩, ⟨5, 0⟩], [⟨3, 0⟩]⟩ :
          memoryMetric).points) ∧
    ((∀ p, (fun _ : DataPoint => (Except.ok () : Except String Unit)) p =
        .ok ()) →
      encodeAllPoints (fun _ => .ok ())
        (⟨[109], 2, 1, 5, [⟨1, 0⟩, ⟨5, 0⟩], [⟨3, 0⟩]⟩ : memoryMetric) =
        .ok ())) :=
  ⟨(chainLeB_iff _).mp (by decide),
    encodeAllPoints_merge_spec
      (⟨[109], 2, 1, 5, [⟨1, 0⟩, ⟨5, 0⟩], [⟨3, 0⟩]⟩ : memoryMetric)
      (fun _ => .ok ()) ((chainLeB_iff _).mp (by decide))⟩

/-! ## Bit stream (claim C4, `src/bstream.go`)

Bytes are `Nat < 256`, the 64-bit words of the reader are `Nat` with
explicit `% 2 ^ 64` where the Go `uint64` shifts can wrap, and the `uint8`
subtraction `b.valid -= nbits` wraps mod 256. -/

/-- `bstream`: the byte stream and how many bits are still writable in the
current last byte. -/
structure bstream where
  stream : List Nat
  count : Nat
deriving DecidableEq

/-- The shared prologue of `writeBit` and `writeByte`: with no writable bits
left, append a fresh zero byte with all 8 bits writable. -/
def bstream.norm (b : bstream) : bstream :=
  if b.count = 0 then ⟨b.stream ++ [0], 8⟩ else b

/-- `bstream.writeBit`: set bit `count - 1` of the last byte (OR, as in the
source) when writing a one, and consume one writable bit. -/
def writeBit (b0 : bstream) (bit : Bool) : bstream :=
  ⟨b0.norm.stream.dropLast ++
    [if bit then b0.norm.stream.getLastD 0 ||| (1 <<< (b0.norm.count - 1))
     else b0.norm.stream.getLastD 0],
   b0.norm.count - 1⟩

/-- `bstream.writeByte`: OR the top `count` bits of the byte into the last
byte's free bits, then append a byte holding the remaining `8 - count` bits
(the Go `byt << count` is a byte shift, hence the `% 256`). -/
def writeByte (b0 : bstream) (byt : Nat) : bstream :=
  ⟨b0.norm.stream.dropLast ++
    [b0.norm.stream.getLastD 0 ||| (byt >>> (8 - b0.norm.count)),
     (byt <<< b0.norm.count) % 256],
   b0.norm.count⟩

/-- The single-bit tail loop of `writeBits`. -/
def writeBitsTail (b : bstream) (u : Nat) : Nat → bstream
  | 0 => b
  | n + 1 =>
    writeBitsTail (writeBit b (decide (u >>> 63 = 1))) ((u <<< 1) % 2 ^ 64) n

/-- The byte-draining loop of `writeBits` (`byte(u >> 56)` truncates). -/
def writeBitsLoop (b : bstream) (u : Nat) (nbits : Nat) : bstream :=
  if 8 ≤ nbits then
    writeBitsLoop (writeByte b ((u >>> 56) % 256)) ((u <<< 8) % 2 ^ 64)
      (nbits - 8)
  else writeBitsTail b u nbits
  termination_by nbits
  decreasing_by omega

/-- `bstream.writeBits`: left-align the low `nbits` of `u` at bit 63 and
drain. -/
def writeBits (b : bstream) (u nbits : Nat) : bstream :=
  writeBitsLoop b ((u <<< (64 - nbits)) % 2 ^ 64) nbits

/-- `bstreamReader`. -/
structure bstreamReader where
  stream : List Nat
  streamOffset : Nat
  buffer : Nat
  valid : Nat
deriving DecidableEq

/-- `newBReader`. -/
def newBReader (b : List Nat) : bstreamReader := ⟨b, 0, 0, 0⟩

/-- `binary.BigEndian.Uint64` on a byte slice (an external stdlib call,
modelled by its big-endian specification). -/
def beVal (bs : List Nat) : Nat := bs.foldl (fun a x => a * 256 + x) 0

/-- The slow-path assembly loop of `loadNextBuffer`:
`buffer |= stream[offset+i] << (8*(nbytes-i-1))`. -/
def loadSlowBuffer (s : List Nat) (off nbytes : Nat) : Nat :=
  (List.range nbytes).foldl
    (fun acc i => acc ||| (s.getD (off + i) 0 <<< (8 * (nbytes - i - 1)))) 0

/-- `bstreamReader.loadNextBuffer`: fast path loads 8 bytes big-endian when
at least 9 remain; the slow path reads `min(nbits/8 + 1, remaining)` bytes.
Returning `false` in Go is `none` here. -/
def loadNextBuffer (b : bstreamReader) (nbits : Nat) : Option bstreamReader :=
  if b.stream.length ≤ b.streamOffset then none
  else if b.streamOffset + 8 < b.stream.length then
    some { b with buffer := beVal ((b.stream.drop b.streamOffset).take 8)
                  streamOffset := b.streamOffset + 8
                  valid := 64 }
  else
    some { b with
      buffer := loadSlowBuffer b.stream b.streamOffset
        (if b.stream.length < b.streamOffset + (nbits / 8 + 1)
         then b.stream.length - b.streamOffset else nbits / 8 + 1)
      streamOffset := b.streamOffset +
        (if b.stream.length < b.streamOffset + (nbits / 8 + 1)
         then b.stream.length - b.streamOffset else nbits / 8 + 1)
      valid := (if b.stream.length < b.streamOffset + (nbits / 8 + 1)
         then b.stream.length - b.streamOffset else nbits / 8 + 1) * 8 }

/-- `bstreamReader.readBitsFast`: take the top `nbits` of the valid window
(the Go masks are `(1 << n) - 1`). -/
def readBitsFast (b : bstreamReader) (nbits : Nat) :
    Option (Nat × bstreamReader) :=
  if b.valid < nbits then none
  else some ((b.buffer >>> (b.valid - nbits)) &&& ((1 <<< nbits) - 1),
             { b with valid := b.valid - nbits })

/-- `bstreamReader.readBits`: refill when empty, fast path when the window
suffices, otherwise compose the remaining valid bits with the head of the
refilled window. `io.EOF` is `none`; the `uint8` subtraction
`b.valid - nbits` wraps mod 256 and the `uint64` shift of `v` wraps mod
`2 ^ 64`, as in Go. -/
def readBits (b0 : bstreamReader) (nbits : Nat) :
    Option (Nat × bstreamReader) :=
  match (if b0.valid = 0 then loadNextBuffer b0 nbits else some b0) with
  | none => none
  | some b =>
    if nbits ≤ b.valid then readBitsFast b nbits
    else
      match loadNextBuffer { b with valid := 0 } (nbits - b.valid) with
      | none => none
      | some b2 =>
        some ((((b.buffer &&& ((1 <<< b.valid) - 1)) <<< (nbits - b.valid))
                % 2 ^ 64) |||
              ((b2.buffer >>> ((256 + b2.valid - (nbits - b.valid)) % 256))
                &&& ((1 <<< (nbits - b.valid)) - 1)),
          { b2 with valid := (256 + b2.valid - (nbits - b.valid)) % 256 })

/-- Writing a sequence of (value, width) pairs into a fresh stream. -/
def writeAll (ps : List (Nat × Nat)) : bstream :=
  ps.foldl (fun b p => writeBits b p.1 p.2) ⟨[], 0⟩

/-- Reading back a sequence of widths. -/
def readAll : List Nat → bstreamReader → Option (List Nat)
  | [], _ => some []
  | n :: ns, r =>
    match readBits r n with
    | none => none
    | some x => (readAll ns x.2).map (fun us => x.1 :: us)

/-! ### Bit-level abstraction -/

/-- The `n`-bit big-endian (MSB first) bit pattern of `u mod 2^n`. -/
def natBitsBE : Nat → Nat → List Bool
  | 0, _ => []
  | n + 1, u => natBitsBE n (u / 2) ++ [decide (u % 2 = 1)]

/-- The value of an MSB-first bit string. -/
def bitsToNat (l : List Bool) : Nat :=
  l.foldl (fun a b => 2 * a + (if b then 1 else 0)) 0

/-- All bits of a byte stream, MSB first within each byte. -/
def allBits (s : List Nat) : List Bool := s.flatMap (natBitsBE 8)

/-- The number of bits written so far (total bits minus the free bits of
the last byte). -/
def writtenLen (b : bstream) : Nat := 8 * b.stream.length - b.count

/-- The bits written so far. -/
def writtenBits (b : bstream) : List Bool :=
  (allBits b.stream).take (writtenLen b)

/-- Writer invariant: the free-bit counter is in range, an empty stream has
no partial byte, bytes are bytes, and the free (low) bits of the last byte
are still zero. -/
def bstreamWF (b : bstream) : Prop :=
  b.count ≤ 8 ∧ (b.stream = [] → b.count = 0) ∧
  (∀ x ∈ b.stream, x < 256) ∧ b.stream.getLastD 0 % 2 ^ b.count = 0

theorem foldl_bits (ys : List Bool) :
    ∀ a : Nat, ys.foldl (fun a b => 2 * a + (if b then 1 else 0)) a =
      a * 2 ^ ys.length + bitsToNat ys := by
  induction ys with
  | nil => intro a; simp [bitsToNat]
  | cons y ys ih =>
    intro a
    rw [List.foldl_cons, ih]
    have hy : bitsToNat (y :: ys) =
        (if y then 1 else 0) * 2 ^ ys.length + bitsToNat ys := by
      rw [bitsToNat, List.foldl_cons, ih]
      simp
    rw [hy, List.length_cons, pow_succ]
    ring

theorem bitsToNat_append (xs ys : List Bool) :
    bitsToNat (xs ++ ys) = bitsToNat xs * 2 ^ ys.length + bitsToNat ys := by
  rw [bitsToNat, List.foldl_append, foldl_bits]
  rfl

theorem bitsToNat_lt : ∀ l : List Bool, bitsToNat l < 2 ^ l.length
  | [] => by simp [bitsToNat]
  | y :: ys => by
    have h1 : bitsToNat (y :: ys) =
        (if y then 1 else 0) * 2 ^ ys.length + bitsToNat ys := by
      rw [bitsToNat, List.foldl_cons, foldl_bits]
      simp
    have h2 := bitsToNat_lt ys
    rw [h1, List.length_cons, pow_succ]
    by_cases hy : y <;> simp [hy] <;> omega

theorem natBitsBE_length : ∀ (n u : Nat), (natBitsBE n u).length = n
  | 0, _ => rfl
  | n + 1, u => by
    rw [natBitsBE, List.length_append, natBitsBE_length n (u / 2)]
    simp

theorem bitsToNat_natBitsBE : ∀ (n u : Nat),
    bitsToNat (natBitsBE n u) = u % 2 ^ n
  | 0, u => by simp [natBitsBE, bitsToNat, Nat.mod_one]
  | n + 1, u => by
    rw [natBitsBE, bitsToNat_append, bitsToNat_natBitsBE n (u / 2)]
    have hbit : bitsToNat [decide (u % 2 = 1)] = u % 2 := by
      rcases Nat.mod_two_eq_zero_or_one u with h | h <;> simp [bitsToNat, h]
    have e1 : u % 2 ^ (n + 1) / 2 = u / 2 % 2 ^ n := by
      rw [show (2 : Nat) ^ (n + 1) = 2 * 2 ^ n by ring]
      exact Nat.mod_mul_right_div_self u 2 (2 ^ n)
    have e2 : u % 2 ^ (n + 1) % 2 = u % 2 :=
      Nat.mod_mod_of_dvd u ⟨2 ^ n, by ring⟩
    rw [hbit, List.length_cons, List.length_nil, pow_one]
    omega

theorem natBitsBE_mod : ∀ (n u : Nat),
    natBitsBE n (u % 2 ^ n) = natBitsBE n u
  | 0, _ => rfl
  | n + 1, u => by
    have e1 : u % 2 ^ (n + 1) / 2 = u / 2 % 2 ^ n := by
      rw [show (2 : Nat) ^ (n + 1) = 2 * 2 ^ n by ring]
      exact Nat.mod_mul_right_div_self u 2 (2 ^ n)
    have e2 : u % 2 ^ (n + 1) % 2 = u % 2 :=
      Nat.mod_mod_of_dvd u ⟨2 ^ n, by ring⟩
    rw [natBitsBE, natBitsBE, e1, e2, natBitsBE_mod n (u / 2)]

theorem natBitsBE_split : ∀ (n m u : Nat),
    natBitsBE (m + n) u = natBitsBE m (u / 2 ^ n) ++ natBitsBE n u
  | 0, m, u => by simp [natBitsBE]
  | n + 1, m, u => by
    have h1 : m + (n + 1) = (m + n) + 1 := rfl
    rw [h1, natBitsBE, natBitsBE_split n m (u / 2), natBitsBE]
    rw [Nat.div_div_eq_div_mul, List.append_assoc]
    rw [show 2 * 2 ^ n = 2 ^ (n + 1) by ring]

theorem lor_eq_add {a b k : Nat} (ha : a % 2 ^ k = 0) (hb : b < 2 ^ k) :
    a ||| b = a + b := by
  obtain ⟨m, rfl⟩ := Nat.dvd_of_mod_eq_zero ha
  exact (Nat.mul_add_lt_is_or hb m).symm

/-! ### Writer correctness -/

theorem allBits_append (s t : List Nat) :
    allBits (s ++ t) = allBits s ++ allBits t := by
  simp [allBits]

theorem allBits_cons (x : Nat) (t : List Nat) :
    allBits (x :: t) = natBitsBE 8 x ++ allBits t := by
  simp [allBits]

theorem allBits_length (s : List Nat) : (allBits s).length = 8 * s.length := by
  induction s with
  | nil => rfl
  | cons x t ih =>
    rw [allBits_cons, List.length_append, natBitsBE_length, ih,
      List.length_cons]
    ring

/-- A normalized writer state: at least one writable bit in a real last
byte. -/
def bstreamNWF (b : bstream) : Prop :=
  1 ≤ b.count ∧ b.count ≤ 8 ∧ b.stream ≠ [] ∧ (∀ x ∈ b.stream, x < 256) ∧
  b.stream.getLastD 0 % 2 ^ b.count = 0

theorem getLastD_concat (l : List α) (a d : α) : (l ++ [a]).getLastD d = a := by
  rw [List.getLastD_eq_getLast?, List.getLast?_concat]
  rfl

theorem norm_nwf {b : bstream} (h : bstreamWF b) :
    bstreamNWF b.norm ∧ writtenBits b.norm = writtenBits b := by
  obtain ⟨h1, h2, h3, h4⟩ := h
  unfold bstream.norm
  by_cases hc : b.count = 0
  · rw [if_pos hc]
    refine ⟨⟨by norm_num, by norm_num, by simp, ?_, ?_⟩, ?_⟩
    · intro x hx
      rcases List.mem_append.mp hx with hx | hx
      · exact h3 x hx
      · simp at hx
        omega
    · rw [getLastD_concat]
      simp
    · unfold writtenBits writtenLen
      dsimp only
      rw [allBits_append, hc, Nat.sub_zero]
      have e1 : 8 * (b.stream ++ [0]).length - 8 = (allBits b.stream).length := by
        rw [allBits_length, List.length_append, List.length_cons,
          List.length_nil]
        omega
      have e2 : (allBits b.stream).take (8 * b.stream.length) =
          allBits b.stream := by
        rw [← allBits_length]
        exact List.take_length _
      rw [e1, List.take_append_of_le_length (le_refl _), List.take_length, e2]
  · rw [if_neg hc]
    exact ⟨⟨by omega, h1, fun hnil => hc (h2 hnil), h3, h4⟩, rfl⟩

theorem stream_eq_concat {s : List Nat} (h : s ≠ []) :
    s = s.dropLast ++ [s.getLastD 0] := by
  conv_lhs => rw [← List.dropLast_concat_getLast h]
  rw [List.getLastD_eq_getLast?, List.getLast?_eq_getLast s h]
  rfl

theorem writtenBits_concat {dl : List Nat} {L c : Nat} (hc : c ≤ 8) :
    writtenBits ⟨dl ++ [L], c⟩ =
      allBits dl ++ natBitsBE (8 - c) (L / 2 ^ c) := by
  unfold writtenBits writtenLen
  rw [allBits_append]
  have h8 : 8 * (dl ++ [L]).length - c = (allBits dl).length + (8 - c) := by
    rw [allBits_length, List.length_append, List.length_cons, List.length_nil]
    omega
  rw [h8, List.take_append]
  congr 1
  have hsplit : natBitsBE 8 L = natBitsBE (8 - c) (L / 2 ^ c) ++ natBitsBE c L := by
    have := natBitsBE_split c (8 - c) L
    rwa [show 8 - c + c = 8 by omega] at this
  have hone : allBits [L] = natBitsBE 8 L := by simp [allBits]
  rw [hone, hsplit, List.take_append_of_le_length (by rw [natBitsBE_length])]
  exact List.take_of_length_le (by rw [natBitsBE_length])

theorem last_byte_decomp {L c : Nat} (hc : c ≤ 8) (hL : L < 256)
    (hmod : L % 2 ^ c = 0) :
    ∃ m, L = 2 ^ c * m ∧ m < 2 ^ (8 - c) := by
  obtain ⟨m, rfl⟩ := Nat.dvd_of_mod_eq_zero hmod
  refine ⟨m, rfl, ?_⟩
  have h256 : (256 : Nat) = 2 ^ c * 2 ^ (8 - c) := by
    rw [← pow_add]
    norm_num [show c + (8 - c) = 8 by omega]
  rw [h256] at hL
  exact Nat.lt_of_mul_lt_mul_left hL

theorem getLastD_mem {s : List α} (h : s ≠ []) (d : α) : s.getLastD d ∈ s := by
  rw [List.getLastD_eq_getLast?, List.getLast?_eq_getLast s h]
  exact List.getLast_mem h

theorem nwf_repr {b : bstream} (h : bstreamNWF b) :
    ∃ dl m, b = ⟨dl ++ [2 ^ b.count * m], b.count⟩ ∧
      m < 2 ^ (8 - b.count) ∧ (∀ x ∈ dl, x < 256) := by
  obtain ⟨h1, h2, h3, h4, h5⟩ := h
  obtain ⟨m, hLm, hmlt⟩ := last_byte_decomp h2
    (h4 _ (getLastD_mem h3 0)) h5
  refine ⟨b.stream.dropLast, m, ?_, hmlt, ?_⟩
  · cases b with
    | mk s c =>
      dsimp only at *
      rw [bstream.mk.injEq]
      refine ⟨?_, rfl⟩
      rw [← hLm]
      exact stream_eq_concat h3
  · intro x hx
    exact h4 x ((List.dropLast_sublist b.stream).subset hx)

theorem writeBit_eq {b0 : bstream} {dl : List Nat} {m c : Nat}
    (hbn : b0.norm = ⟨dl ++ [2 ^ c * m], c⟩) (hc1 : 1 ≤ c) (bit : Bool) :
    writeBit b0 bit =
      ⟨dl ++ [2 ^ (c - 1) * (2 * m + (if bit then 1 else 0))], c - 1⟩ := by
  unfold writeBit
  rw [hbn]
  dsimp only
  rw [List.dropLast_concat, getLastD_concat, bstream.mk.injEq]
  refine ⟨?_, rfl⟩
  have hpow : 2 ^ c = 2 ^ (c - 1) * 2 := by
    rw [← pow_succ]
    congr 1
    omega
  by_cases hbit : bit
  · rw [if_pos hbit]
    have hlor : 2 ^ c * m ||| 1 <<< (c - 1) = 2 ^ c * m + 2 ^ (c - 1) := by
      rw [Nat.shiftLeft_eq, one_mul]
      refine lor_eq_add (Nat.mul_mod_right _ _) ?_
      rw [hpow]
      have : 0 < 2 ^ (c - 1) := Nat.pos_pow_of_pos _ (by norm_num)
      omega
    rw [hlor, hpow, if_pos hbit]
    ring
  · rw [if_neg hbit, if_neg hbit, hpow]
    ring

theorem writeByte_eq {b0 : bstream} {dl : List Nat} {m c byt : Nat}
    (hbn : b0.norm = ⟨dl ++ [2 ^ c * m], c⟩) (hc8 : c ≤ 8)
    (hbyt : byt < 256) :
    writeByte b0 byt = ⟨dl ++ [2 ^ c * m + byt / 2 ^ (8 - c),
      2 ^ c * (byt % 2 ^ (8 - c))], c⟩ := by
  unfold writeByte
  rw [hbn]
  dsimp only
  rw [List.dropLast_concat, getLastD_concat, bstream.mk.injEq]
  have h256 : (256 : Nat) = 2 ^ (8 - c) * 2 ^ c := by
    rw [← pow_add, show 8 - c + c = 8 by omega]
    norm_num
  have hdivlt : byt / 2 ^ (8 - c) < 2 ^ c :=
    Nat.div_lt_of_lt_mul (by rw [← h256]; exact hbyt)
  constructor
  · rw [Nat.shiftRight_eq_div_pow]
    have hlor := lor_eq_add (Nat.mul_mod_right (2 ^ c) m) hdivlt
    have htail : byt <<< c % 256 = 2 ^ c * (byt % 2 ^ (8 - c)) := by
      rw [Nat.shiftLeft_eq, h256, Nat.mul_mod_mul_right]
      ring
    rw [hlor, htail]
  · rfl

theorem writeBit_spec {b : bstream} (h : bstreamWF b) (bit : Bool) :
    bstreamWF (writeBit b bit) ∧
    writtenBits (writeBit b bit) = writtenBits b ++ [bit] := by
  obtain ⟨hn, hwb⟩ := norm_nwf h
  obtain ⟨dl, m, hbn, hmlt, hdl⟩ := nwf_repr hn
  obtain ⟨hc1, hc8, -, -, -⟩ := hn
  have hw := writeBit_eq hbn hc1 bit
  have hx9 : 2 * m + (if bit then 1 else 0) < 2 ^ (9 - b.norm.count) := by
    have h2 : 2 ^ (9 - b.norm.count) = 2 * 2 ^ (8 - b.norm.count) := by
      rw [show 9 - b.norm.count = (8 - b.norm.count) + 1 by omega, pow_succ]
      ring
    by_cases hbit : bit
    · rw [if_pos hbit]
      omega
    · rw [if_neg hbit]
      omega
  have hnewbyte : 2 ^ (b.norm.count - 1) *
      (2 * m + (if bit then 1 else 0)) < 256 := by
    have h2 : 2 ^ (b.norm.count - 1) * 2 ^ (9 - b.norm.count) = 256 := by
      rw [← pow_add, show b.norm.count - 1 + (9 - b.norm.count) = 8 by omega]
      norm_num
    calc 2 ^ (b.norm.count - 1) * (2 * m + (if bit then 1 else 0)) <
        2 ^ (b.norm.count - 1) * 2 ^ (9 - b.norm.count) :=
          mul_lt_mul_of_pos_left hx9 (Nat.pos_pow_of_pos _ (by norm_num))
      _ = 256 := h2
  constructor
  · rw [hw]
    refine ⟨show b.norm.count - 1 ≤ 8 by omega, ?_, ?_, ?_⟩
    · intro hcontra
      exact absurd hcontra (by simp)
    · intro x hx
      rcases List.mem_append.mp hx with hx | hx
      · exact hdl x hx
      · simp only [List.mem_singleton] at hx
        subst hx
        exact hnewbyte
    · rw [getLastD_concat]
      exact Nat.mul_mod_right _ _
  · rw [hw, writtenBits_concat (by omega), ← hwb, hbn,
      writtenBits_concat hc8]
    rw [Nat.mul_div_cancel_left m (Nat.pos_pow_of_pos _ (by norm_num)),
      Nat.mul_div_cancel_left _ (Nat.pos_pow_of_pos _ (by norm_num))]
    rw [show 8 - (b.norm.count - 1) = (8 - b.norm.count) + 1 by omega]
    rw [natBitsBE, List.append_assoc]
    congr 2
    · congr 1
      by_cases hbit : bit <;> simp [hbit] <;> omega
    · by_cases hbit : bit <;> simp [hbit] <;> omega

theorem writeByte_spec {b : bstream} (h : bstreamWF b) {byt : Nat}
    (hbyt : byt < 256) :
    bstreamWF (writeByte b byt) ∧
    writtenBits (writeByte b byt) = writtenBits b ++ natBitsBE 8 byt := by
  obtain ⟨hn, hwb⟩ := norm_nwf h
  obtain ⟨dl, m, hbn, hmlt, hdl⟩ := nwf_repr hn
  obtain ⟨hc1, hc8, -, -, -⟩ := hn
  have hw := writeByte_eq hbn hc8 hbyt
  have h256 : (256 : Nat) = 2 ^ (8 - b.norm.count) * 2 ^ b.norm.count := by
    rw [← pow_add, show 8 - b.norm.count + b.norm.count = 8 by omega]
    norm_num
  have hdivlt : byt / 2 ^ (8 - b.norm.count) < 2 ^ b.norm.count :=
    Nat.div_lt_of_lt_mul (by rw [← h256]; exact hbyt)
  have hmerged : 2 ^ b.norm.count * m + byt / 2 ^ (8 - b.norm.count) < 256 := by
    calc 2 ^ b.norm.count * m + byt / 2 ^ (8 - b.norm.count) <
        2 ^ b.norm.count * m + 2 ^ b.norm.count := by omega
      _ = 2 ^ b.norm.count * (m + 1) := by ring
      _ ≤ 2 ^ b.norm.count * 2 ^ (8 - b.norm.count) :=
          Nat.mul_le_mul_left _ (by omega)
      _ = 256 := by rw [mul_comm, ← h256]
  have htail : 2 ^ b.norm.count * (byt % 2 ^ (8 - b.norm.count)) < 256 := by
    calc 2 ^ b.norm.count * (byt % 2 ^ (8 - b.norm.count)) <
        2 ^ b.norm.count * 2 ^ (8 - b.norm.count) :=
          mul_lt_mul_of_pos_left
            (Nat.mod_lt _ (Nat.pos_pow_of_pos _ (by norm_num)))
            (Nat.pos_pow_of_pos _ (by norm_num))
      _ = 256 := by rw [mul_comm, ← h256]
  constructor
  · rw [hw]
    refine ⟨hc8, ?_, ?_, ?_⟩
    · intro hcontra
      exact absurd hcontra (by simp)
    · intro x hx
      rcases List.mem_append.mp hx with hx | hx
      · exact hdl x hx
      · simp only [List.mem_cons, List.mem_singleton, List.not_mem_nil,
          or_false] at hx
        rcases hx with rfl | rfl
        · exact hmerged
        · exact htail
    · have : (dl ++ [2 ^ b.norm.count * m + byt / 2 ^ (8 - b.norm.count),
          2 ^ b.norm.count * (byt % 2 ^ (8 - b.norm.count))]) =
          ((dl ++ [2 ^ b.norm.count * m + byt / 2 ^ (8 - b.norm.count)]) ++
            [2 ^ b.norm.count * (byt % 2 ^ (8 - b.norm.count))]) := by
        simp
      rw [this, getLastD_concat]
      exact Nat.mul_mod_right _ _
  · have hsplit2 : (dl ++ [2 ^ b.norm.count * m + byt / 2 ^ (8 - b.norm.count),
        2 ^ b.norm.count * (byt % 2 ^ (8 - b.norm.count))]) =
        ((dl ++ [2 ^ b.norm.count * m + byt / 2 ^ (8 - b.norm.count)]) ++
          [2 ^ b.norm.count * (byt % 2 ^ (8 - b.norm.count))]) := by
      simp
    rw [hw]
    have hgoal1 : writtenBits ⟨dl ++ [2 ^ b.norm.count * m +
        byt / 2 ^ (8 - b.norm.count),
        2 ^ b.norm.count * (byt % 2 ^ (8 - b.norm.count))], b.norm.count⟩ =
        allBits (dl ++ [2 ^ b.norm.count * m + byt / 2 ^ (8 - b.norm.count)]) ++
          natBitsBE (8 - b.norm.count)
            (2 ^ b.norm.count * (byt % 2 ^ (8 - b.norm.count)) /
              2 ^ b.norm.count) := by
      rw [show (⟨dl ++ [2 ^ b.norm.count * m + byt / 2 ^ (8 - b.norm.count),
          2 ^ b.norm.count * (byt % 2 ^ (8 - b.norm.count))], b.norm.count⟩ :
            bstream) =
          ⟨(dl ++ [2 ^ b.norm.count * m + byt / 2 ^ (8 - b.norm.count)]) ++
            [2 ^ b.norm.count * (byt % 2 ^ (8 - b.norm.count))],
            b.norm.count⟩ by rw [bstream.mk.injEq]; exact ⟨hsplit2, rfl⟩]
      exact writtenBits_concat hc8
    rw [hgoal1, ← hwb, hbn, writtenBits_concat hc8,
      Nat.mul_div_cancel_left _ (Nat.pos_pow_of_pos _ (by norm_num)),
      Nat.mul_div_cancel_left _ (Nat.pos_pow_of_pos _ (by norm_num)),
      allBits_append]
    have hsplit8 : ∀ u, natBitsBE 8 u =
        natBitsBE (8 - b.norm.count) (u / 2 ^ b.norm.count) ++
          natBitsBE b.norm.count u := by
      intro u
      have hs := natBitsBE_split b.norm.count (8 - b.norm.count) u
      rw [show 8 - b.norm.count + b.norm.count = 8 from by omega] at hs
      exact hs
    have hmergedbits : allBits [2 ^ b.norm.count * m +
        byt / 2 ^ (8 - b.norm.count)] =
        natBitsBE (8 - b.norm.count) m ++
          natBitsBE b.norm.count (byt / 2 ^ (8 - b.norm.count)) := by
      have h1 : allBits [2 ^ b.norm.count * m + byt / 2 ^ (8 - b.norm.count)] =
          natBitsBE 8 (2 ^ b.norm.count * m + byt / 2 ^ (8 - b.norm.count)) := by
        simp [allBits]
      have hdiv : (2 ^ b.norm.count * m + byt / 2 ^ (8 - b.norm.count)) /
          2 ^ b.norm.count = m := by
        rw [Nat.mul_add_div (Nat.pos_pow_of_pos _ (by norm_num)),
          Nat.div_eq_of_lt hdivlt, Nat.add_zero]
      have hmod : natBitsBE b.norm.count
          (2 ^ b.norm.count * m + byt / 2 ^ (8 - b.norm.count)) =
          natBitsBE b.norm.count (byt / 2 ^ (8 - b.norm.count)) := by
        rw [← natBitsBE_mod b.norm.count
          (2 ^ b.norm.count * m + byt / 2 ^ (8 - b.norm.count)),
          Nat.mul_add_mod, Nat.mod_eq_of_lt hdivlt]
      rw [h1, hsplit8, hdiv, hmod]
    have hbytesplit : natBitsBE 8 byt =
        natBitsBE b.norm.count (byt / 2 ^ (8 - b.norm.count)) ++
          natBitsBE (8 - b.norm.count) byt := by
      have hs := natBitsBE_split (8 - b.norm.count) b.norm.count byt
      rw [show b.norm.count + (8 - b.norm.count) = 8 from by omega] at hs
      exact hs
    rw [hmergedbits, hbytesplit,
      ← natBitsBE_mod (8 - b.norm.count) byt]
    simp [List.append_assoc]

theorem headBit_eq {u : Nat} (hu : u < 2 ^ 64) :
    natBitsBE 64 u = decide (u >>> 63 = 1) :: natBitsBE 63 u := by
  have hs := natBitsBE_split 63 1 u
  rw [show 1 + 63 = 64 from by norm_num] at hs
  have h1 : natBitsBE 1 (u / 2 ^ 63) = [decide (u / 2 ^ 63 % 2 = 1)] := by
    simp [natBitsBE]
  have hlt2 : u / 2 ^ 63 < 2 :=
    Nat.div_lt_of_lt_mul
      (by rw [show (2 : Nat) ^ 63 * 2 = 2 ^ 64 from by norm_num]; exact hu)
  have hb : decide (u / 2 ^ 63 % 2 = 1) = decide (u >>> 63 = 1) := by
    apply decide_eq_decide.mpr
    rw [Nat.shiftRight_eq_div_pow]
    constructor <;> intro h <;> omega
  rw [hs, h1, hb, List.singleton_append]

theorem shiftTail_eq (u : Nat) :
    natBitsBE 64 ((u <<< 1) % 2 ^ 64) = natBitsBE 63 u ++ [false] := by
  have h1 : (u <<< 1) % 2 ^ 64 = 2 * (u % 2 ^ 63) := by
    rw [Nat.shiftLeft_eq, pow_one, mul_comm u 2,
      show (2 : Nat) ^ 64 = 2 * 2 ^ 63 from by norm_num, Nat.mul_mod_mul_left]
  have hs := natBitsBE_split 1 63 (2 * (u % 2 ^ 63))
  rw [show 63 + 1 = 64 from by norm_num] at hs
  have h2 : 2 * (u % 2 ^ 63) / 2 ^ 1 = u % 2 ^ 63 := by
    rw [pow_one]
    exact Nat.mul_div_cancel_left _ (by norm_num)
  have h3 : natBitsBE 1 (2 * (u % 2 ^ 63)) = [false] := by
    simp [natBitsBE, Nat.mul_mod_right]
  rw [h1, hs, h2, natBitsBE_mod, h3]

theorem writeBitsTail_spec : ∀ (n : Nat) {b : bstream} {u : Nat},
    bstreamWF b → u < 2 ^ 64 → n ≤ 64 →
    bstreamWF (writeBitsTail b u n) ∧
    writtenBits (writeBitsTail b u n) =
      writtenBits b ++ (natBitsBE 64 u).take n
  | 0, b, u, hb, _, _ => ⟨hb, by simp [writeBitsTail]⟩
  | n + 1, b, u, hb, hu, hn => by
    obtain ⟨hwf1, hwr1⟩ := writeBit_spec hb (decide (u >>> 63 = 1))
    have hu1 : (u <<< 1) % 2 ^ 64 < 2 ^ 64 := Nat.mod_lt _ (by norm_num)
    obtain ⟨hwf2, hwr2⟩ := writeBitsTail_spec n hwf1 hu1 (by omega)
    refine ⟨hwf2, ?_⟩
    rw [writeBitsTail, hwr2, hwr1, shiftTail_eq,
      List.take_append_of_le_length (by rw [natBitsBE_length]; omega),
      headBit_eq hu, List.take_succ_cons, List.append_assoc,
      List.singleton_append]

theorem writeBitsLoop_spec (n : Nat) : ∀ {b : bstream} {u : Nat},
    bstreamWF b → u < 2 ^ 64 → n ≤ 64 →
    bstreamWF (writeBitsLoop b u n) ∧
    writtenBits (writeBitsLoop b u n) =
      writtenBits b ++ (natBitsBE 64 u).take n := by
  induction n using Nat.strong_induction_on with
  | _ n ih =>
    intro b u hb hu hn
    by_cases h8 : 8 ≤ n
    · unfold writeBitsLoop
      rw [if_pos h8]
      have hbyte : (u >>> 56) % 256 < 256 := Nat.mod_lt _ (by norm_num)
      obtain ⟨hwf1, hwr1⟩ := writeByte_spec hb hbyte
      have hu1 : (u <<< 8) % 2 ^ 64 < 2 ^ 64 := Nat.mod_lt _ (by norm_num)
      obtain ⟨hwf2, hwr2⟩ := ih (n - 8) (by omega) hwf1 hu1 (by omega)
      refine ⟨hwf2, ?_⟩
      rw [hwr2, hwr1]
      have he1 : natBitsBE 8 ((u >>> 56) % 256) = natBitsBE 8 (u / 2 ^ 56) := by
        rw [Nat.shiftRight_eq_div_pow,
          show (256 : Nat) = 2 ^ 8 from by norm_num, natBitsBE_mod]
      have hsplit : natBitsBE 64 u =
          natBitsBE 8 (u / 2 ^ 56) ++ natBitsBE 56 u := by
        have hs := natBitsBE_split 56 8 u
        rw [show 8 + 56 = 64 from by norm_num] at hs
        exact hs
      have hshift : (natBitsBE 64 ((u <<< 8) % 2 ^ 64)).take (n - 8) =
          (natBitsBE 56 u).take (n - 8) := by
        have h1 : (u <<< 8) % 2 ^ 64 / 2 ^ 8 = u % 2 ^ 56 := by
          rw [Nat.shiftLeft_eq, mul_comm u (2 ^ 8),
            show (2 : Nat) ^ 64 = 2 ^ 8 * 2 ^ 56 from by norm_num,
            Nat.mul_mod_mul_left]
          exact Nat.mul_div_cancel_left _ (by norm_num)
        have hs := natBitsBE_split 8 56 ((u <<< 8) % 2 ^ 64)
        rw [show 56 + 8 = 64 from by norm_num, h1, natBitsBE_mod 56 u] at hs
        rw [hs,
          List.take_append_of_le_length (by rw [natBitsBE_length]; omega)]
      have htk : List.take n (natBitsBE 8 (u / 2 ^ 56)) =
          natBitsBE 8 (u / 2 ^ 56) :=
        List.take_of_length_le (by rw [natBitsBE_length]; omega)
      rw [hshift, hsplit, List.take_append_eq_append_take, natBitsBE_length,
        htk, he1, List.append_assoc]
    · unfold writeBitsLoop
      rw [if_neg h8]
      exact writeBitsTail_spec n hb hu hn

theorem writeBits_spec {b : bstream} (hb : bstreamWF b) (u : Nat) {n : Nat}
    (hn : n ≤ 64) :
    bstreamWF (writeBits b u n) ∧
    writtenBits (writeBits b u n) = writtenBits b ++ natBitsBE n u := by
  have hu : (u <<< (64 - n)) % 2 ^ 64 < 2 ^ 64 := Nat.mod_lt _ (by norm_num)
  obtain ⟨hwf, hwr⟩ := writeBitsLoop_spec n hb hu hn
  refine ⟨hwf, ?_⟩
  unfold writeBits
  rw [hwr]
  congr 1
  have h1 : (u <<< (64 - n)) % 2 ^ 64 = 2 ^ (64 - n) * (u % 2 ^ n) := by
    rw [Nat.shiftLeft_eq, mul_comm u (2 ^ (64 - n)),
      show (2 : Nat) ^ 64 = 2 ^ (64 - n) * 2 ^ n from by
        rw [← pow_add]
        congr 1
        omega,
      Nat.mul_mod_mul_left]
  have h2 : 2 ^ (64 - n) * (u % 2 ^ n) / 2 ^ (64 - n) = u % 2 ^ n :=
    Nat.mul_div_cancel_left _ (Nat.pos_pow_of_pos _ (by norm_num))
  have hs := natBitsBE_split (64 - n) n ((u <<< (64 - n)) % 2 ^ 64)
  rw [show n + (64 - n) = 64 from by omega] at hs
  rw [hs, h1, h2, natBitsBE_mod,
    List.take_append_of_le_length (by rw [natBitsBE_length])]
  exact List.take_of_length_le (by rw [natBitsBE_length])

theorem writeAll_go : ∀ (ps : List (Nat × Nat)) (b : bstream),
    bstreamWF b → (∀ q ∈ ps, q.2 ≤ 64) →
    bstreamWF (ps.foldl (fun b p => writeBits b p.1 p.2) b) ∧
    writtenBits (ps.foldl (fun b p => writeBits b p.1 p.2) b) =
      writtenBits b ++ ps.flatMap (fun q => natBitsBE q.2 q.1)
  | [], b, hb, _ => by simp [hb]
  | p :: ps, b, hb, hps => by
    obtain ⟨hwf1, hwr1⟩ := writeBits_spec hb p.1 (hps p (by simp))
    obtain ⟨hwf2, hwr2⟩ :=
      writeAll_go ps _ hwf1 (fun q hq => hps q (by simp [hq]))
    refine ⟨hwf2, ?_⟩
    simp only [List.foldl_cons]
    rw [hwr2, hwr1, List.flatMap_cons, List.append_assoc]

theorem writeAll_spec (ps : List (Nat × Nat)) (hps : ∀ q ∈ ps, q.2 ≤ 64) :
    bstreamWF (writeAll ps) ∧
    writtenBits (writeAll ps) = ps.flatMap (fun q => natBitsBE q.2 q.1) := by
  have h0 : bstreamWF (⟨[], 0⟩ : bstream) := by
    refine ⟨by norm_num, fun _ => rfl, by simp, rfl⟩
  obtain ⟨h1, h2⟩ := writeAll_go ps ⟨[], 0⟩ h0 hps
  unfold writeAll
  refine ⟨h1, ?_⟩
  rw [h2, show writtenBits ⟨[], 0⟩ = [] from rfl, List.nil_append]

/-! ### Reader correctness -/

/-- Abstraction invariant of a reader positioned `p` bits into the bit
stream of `S`: the low `valid` bits of `buffer` hold the next `valid` bits
of the stream. -/
def GoodAt (S : List Nat) (R : bstreamReader) (p : Nat) : Prop :=
  R.stream = S ∧ R.valid ≤ 64 ∧ p + R.valid = 8 * R.streamOffset ∧
  R.streamOffset ≤ S.length ∧
  R.buffer % 2 ^ R.valid = bitsToNat (((allBits S).drop p).take R.valid)

theorem drop_append_len {α : Type} {A B : List α} {n : Nat} (m : Nat)
    (h : A.length = n) : (A ++ B).drop (n + m) = B.drop m := by
  subst h
  exact List.drop_append m

theorem take_append_len {α : Type} {A B : List α} {n : Nat} (m : Nat)
    (h : A.length = n) : (A ++ B).take (n + m) = A ++ B.take m := by
  subst h
  exact List.take_append m

theorem allBits_drop : ∀ (k : Nat) (S : List Nat),
    (allBits S).drop (8 * k) = allBits (S.drop k)
  | 0, S => by simp
  | k + 1, [] => by simp [allBits]
  | k + 1, x :: S => by
    rw [allBits_cons, show 8 * (k + 1) = 8 + 8 * k from by ring,
      drop_append_len (8 * k) (natBitsBE_length 8 x), allBits_drop k S,
      List.drop_succ_cons]

theorem allBits_take : ∀ (k : Nat) (S : List Nat),
    (allBits S).take (8 * k) = allBits (S.take k)
  | 0, S => by simp [allBits]
  | k + 1, [] => by simp [allBits]
  | k + 1, x :: S => by
    rw [allBits_cons, show 8 * (k + 1) = 8 + 8 * k from by ring,
      take_append_len (8 * k) (natBitsBE_length 8 x), allBits_take k S,
      List.take_succ_cons, allBits_cons]

theorem bitsToNat_take_lt (l : List Bool) (n : Nat) :
    bitsToNat (l.take n) < 2 ^ n :=
  Nat.lt_of_lt_of_le (bitsToNat_lt _)
    (Nat.pow_le_pow_right (by norm_num) (List.length_take_le ..))

theorem foldl_beVal (bs : List Nat) :
    ∀ a : Nat, bs.foldl (fun a x => a * 256 + x) a =
      a * 256 ^ bs.length + beVal bs := by
  induction bs with
  | nil => intro a; simp [beVal]
  | cons x bs ih =>
    intro a
    rw [List.foldl_cons, ih]
    show (a * 256 + x) * 256 ^ bs.length + beVal bs =
      a * 256 ^ (x :: bs).length + beVal (x :: bs)
    rw [show beVal (x :: bs) =
        x * 256 ^ bs.length + beVal bs from by
      show List.foldl _ (0 * 256 + x) bs = _
      rw [ih]
      ring_nf, List.length_cons]
    ring

theorem beVal_eq_bitsToNat : ∀ (bs : List Nat), (∀ x ∈ bs, x < 256) →
    beVal bs = bitsToNat (allBits bs)
  | [], _ => rfl
  | x :: bs, h => by
    have hx : x < 256 := h x (by simp)
    rw [allBits_cons, bitsToNat_append, allBits_length,
      ← beVal_eq_bitsToNat bs (fun y hy => h y (by simp [hy])),
      bitsToNat_natBitsBE,
      show x % 2 ^ 8 = x from Nat.mod_eq_of_lt (by omega)]
    show beVal (x :: bs) = x * 2 ^ (8 * bs.length) + beVal bs
    show List.foldl _ (0 * 256 + x) bs = _
    rw [foldl_beVal, show (256 : Nat) = 2 ^ 8 from by norm_num, ← pow_mul]
    ring_nf


theorem foldl_ext_mem {α β : Type} : ∀ (l : List β) (f g : α → β → α) (a : α),
    (∀ acc x, x ∈ l → f acc x = g acc x) → l.foldl f a = l.foldl g a
  | [], _, _, _, _ => rfl
  | x :: l, f, g, a, h => by
    rw [List.foldl_cons, List.foldl_cons, h a x (by simp)]
    exact foldl_ext_mem l f g _ (fun acc y hy => h acc y (by simp [hy]))

theorem loadSlow_go : ∀ (n : Nat) (S : List Nat) (off a : Nat),
    (∀ x ∈ S, x < 256) → off + n ≤ S.length → a % 2 ^ (8 * n) = 0 →
    (List.range n).foldl
      (fun acc i => acc ||| (S.getD (off + i) 0 <<< (8 * (n - i - 1)))) a =
      a + beVal ((S.drop off).take n)
  | 0, S, off, a, _, _, _ => by simp [beVal]
  | n + 1, S, off, a, hS, hlen, ha => by
    have hofflt : off < S.length := by omega
    have hbyte : S.getD off 0 = S[off] := List.getD_eq_getElem S 0 hofflt
    have hblt : S[off] < 256 := hS _ (List.getElem_mem hofflt)
    simp only [List.range_succ_eq_map, List.foldl_cons, List.foldl_map]
    have hinit : a ||| S.getD (off + 0) 0 <<< (8 * (n + 1 - 0 - 1)) =
        a + S[off] * 2 ^ (8 * n) := by
      rw [Nat.add_zero, hbyte, Nat.shiftLeft_eq,
        show n + 1 - 0 - 1 = n from by omega]
      refine lor_eq_add ha ?_
      calc S[off] * 2 ^ (8 * n) < 256 * 2 ^ (8 * n) :=
            mul_lt_mul_of_pos_right hblt (Nat.pos_pow_of_pos _ (by norm_num))
        _ = 2 ^ (8 * (n + 1)) := by
            rw [show (256 : Nat) = 2 ^ 8 from by norm_num, ← pow_add]
            congr 1
            ring
    rw [hinit]
    have hbody := foldl_ext_mem (List.range n)
      (fun x y => x ||| S.getD (off + y.succ) 0 <<< (8 * (n + 1 - y.succ - 1)))
      (fun acc i => acc ||| (S.getD (off + 1 + i) 0 <<< (8 * (n - i - 1))))
      (a + S[off] * 2 ^ (8 * n))
      (fun acc i _ => by
        dsimp only
        rw [show off + i.succ = off + 1 + i from by omega,
          show n + 1 - i.succ - 1 = n - i - 1 from by omega])
    rw [hbody]
    have ha1 : (a + S[off] * 2 ^ (8 * n)) % 2 ^ (8 * n) = 0 := by
      obtain ⟨t, ht⟩ := Nat.dvd_of_mod_eq_zero ha
      rw [ht, show (2 : Nat) ^ (8 * (n + 1)) * t + S[off] * 2 ^ (8 * n) =
        2 ^ (8 * n) * (2 ^ 8 * t + S[off]) from by
          rw [show 8 * (n + 1) = 8 * n + 8 from by ring, pow_add]
          ring]
      exact Nat.mul_mod_right _ _
    rw [loadSlow_go n S (off + 1) _ hS (by omega) ha1]
    have hdrop : S.drop off = S[off] :: S.drop (off + 1) :=
      List.drop_eq_getElem_cons hofflt
    rw [hdrop, List.take_succ_cons]
    have hbev : beVal (S[off] :: (S.drop (off + 1)).take n) =
        S[off] * 2 ^ (8 * n) + beVal ((S.drop (off + 1)).take n) := by
      show List.foldl _ (0 * 256 + S[off]) _ = _
      rw [foldl_beVal, List.length_take, List.length_drop,
        show min n (S.length - (off + 1)) = n from by omega,
        show (256 : Nat) = 2 ^ 8 from by norm_num, ← pow_mul]
      ring_nf
    rw [hbev]
    ring

theorem loadSlowBuffer_eq {S : List Nat} {off n : Nat}
    (hS : ∀ x ∈ S, x < 256) (h : off + n ≤ S.length) :
    loadSlowBuffer S off n =
      bitsToNat (((allBits S).drop (8 * off)).take (8 * n)) := by
  unfold loadSlowBuffer
  rw [loadSlow_go n S off 0 hS h (Nat.zero_mod _), Nat.zero_add,
    allBits_drop, allBits_take]
  exact beVal_eq_bitsToNat _
    (fun x hx => hS x (List.mem_of_mem_drop (List.mem_of_mem_take hx)))


theorem load_spec {S : List Nat} {R : bstreamReader} {n : Nat}
    (hS : ∀ x ∈ S, x < 256) (hstream : R.stream = S)
    (hofflen : R.streamOffset ≤ S.length)
    (h1 : 1 ≤ n) (h64 : n ≤ 64)
    (hrem : 8 * R.streamOffset + n ≤ 8 * S.length) :
    ∃ R', loadNextBuffer R n = some R' ∧
      GoodAt S R' (8 * R.streamOffset) ∧ n ≤ R'.valid := by
  have hofflt : R.streamOffset < S.length := by omega
  unfold loadNextBuffer
  rw [hstream, if_neg (by omega)]
  by_cases hfast : R.streamOffset + 8 < S.length
  · rw [if_pos hfast]
    refine ⟨_, rfl, ⟨rfl, ?_, ?_, ?_, ?_⟩, h64⟩
    · show (64 : Nat) ≤ 64
      omega
    · show 8 * R.streamOffset + 64 = 8 * (R.streamOffset + 8)
      ring
    · show R.streamOffset + 8 ≤ S.length
      omega
    · show beVal (List.take 8 (List.drop R.streamOffset S)) % 2 ^ 64 =
        bitsToNat (((allBits S).drop (8 * R.streamOffset)).take 64)
      have hb : beVal ((S.drop R.streamOffset).take 8) =
          bitsToNat (((allBits S).drop (8 * R.streamOffset)).take 64) := by
        rw [allBits_drop, show (64 : Nat) = 8 * 8 from by norm_num,
          allBits_take]
        exact beVal_eq_bitsToNat _
          (fun x hx => hS x (List.mem_of_mem_drop (List.mem_of_mem_take hx)))
      rw [hb]
      exact Nat.mod_eq_of_lt (bitsToNat_take_lt _ _)
  · rw [if_neg hfast]
    have hle8 : S.length ≤ R.streamOffset + 8 := by omega
    by_cases hclamp : S.length < R.streamOffset + (n / 8 + 1)
    · rw [if_pos hclamp]
      have hle : R.streamOffset + (S.length - R.streamOffset) ≤ S.length := by
        omega
      have hbuf := loadSlowBuffer_eq hS hle
      refine ⟨_, rfl, ⟨rfl, ?_, ?_, ?_, ?_⟩, ?_⟩
      · show (S.length - R.streamOffset) * 8 ≤ 64
        omega
      · show 8 * R.streamOffset + (S.length - R.streamOffset) * 8 =
          8 * (R.streamOffset + (S.length - R.streamOffset))
        omega
      · show R.streamOffset + (S.length - R.streamOffset) ≤ S.length
        omega
      · show loadSlowBuffer S R.streamOffset (S.length - R.streamOffset) %
            2 ^ ((S.length - R.streamOffset) * 8) =
          bitsToNat (((allBits S).drop (8 * R.streamOffset)).take
            ((S.length - R.streamOffset) * 8))
        rw [show (S.length - R.streamOffset) * 8 =
            8 * (S.length - R.streamOffset) from by ring, hbuf]
        exact Nat.mod_eq_of_lt (bitsToNat_take_lt _ _)
      · show n ≤ (S.length - R.streamOffset) * 8
        omega
    · rw [if_neg hclamp]
      have hle : R.streamOffset + (n / 8 + 1) ≤ S.length := by omega
      have hbuf := loadSlowBuffer_eq hS hle
      refine ⟨_, rfl, ⟨rfl, ?_, ?_, ?_, ?_⟩, ?_⟩
      · show (n / 8 + 1) * 8 ≤ 64
        omega
      · show 8 * R.streamOffset + (n / 8 + 1) * 8 =
          8 * (R.streamOffset + (n / 8 + 1))
        omega
      · show R.streamOffset + (n / 8 + 1) ≤ S.length
        omega
      · show loadSlowBuffer S R.streamOffset (n / 8 + 1) %
            2 ^ ((n / 8 + 1) * 8) =
          bitsToNat (((allBits S).drop (8 * R.streamOffset)).take
            ((n / 8 + 1) * 8))
        rw [show (n / 8 + 1) * 8 = 8 * (n / 8 + 1) from by ring, hbuf]
        exact Nat.mod_eq_of_lt (bitsToNat_take_lt _ _)
      · show n ≤ (n / 8 + 1) * 8
        omega



theorem bits_extract {B v n p : Nat} {L : List Bool}
    (hn : n ≤ v) (hpv : p + v ≤ L.length)
    (hbuf : B % 2 ^ v = bitsToNat ((L.drop p).take v)) :
    (B >>> (v - n)) &&& ((1 <<< n) - 1) = bitsToNat ((L.drop p).take n) ∧
    B % 2 ^ (v - n) = bitsToNat ((L.drop (p + n)).take (v - n)) := by
  have hTlen : ((L.drop p).take v).length = v := by
    rw [List.length_take, List.length_drop]
    omega
  have h1 : ((L.drop p).take v).take n = (L.drop p).take n := by
    rw [List.take_take, min_eq_left hn]
  have h2 : ((L.drop p).take v).drop n = (L.drop (p + n)).take (v - n) := by
    rw [List.drop_take, List.drop_drop]
  have hrepr : bitsToNat ((L.drop p).take v) =
      bitsToNat ((L.drop p).take n) * 2 ^ (v - n) +
        bitsToNat ((L.drop (p + n)).take (v - n)) := by
    conv_lhs => rw [← List.take_append_drop n ((L.drop p).take v)]
    rw [bitsToNat_append, List.length_drop, hTlen, h1, h2]
  have hA : bitsToNat ((L.drop p).take n) < 2 ^ n := bitsToNat_take_lt _ _
  have hC : bitsToNat ((L.drop (p + n)).take (v - n)) < 2 ^ (v - n) :=
    bitsToNat_take_lt _ _
  have hvsplit : (2 : Nat) ^ v = 2 ^ (v - n) * 2 ^ n := by
    rw [← pow_add]
    congr 1
    omega
  constructor
  · rw [Nat.shiftRight_eq_div_pow, Nat.one_shiftLeft,
      Nat.and_pow_two_sub_one_eq_mod,
      show B / 2 ^ (v - n) % 2 ^ n = B % (2 ^ (v - n) * 2 ^ n) / 2 ^ (v - n)
        from (Nat.mod_mul_right_div_self B _ _).symm,
      ← hvsplit, hbuf, hrepr, mul_comm _ ((2 : Nat) ^ (v - n)),
      Nat.mul_add_div (Nat.pos_pow_of_pos _ (by norm_num)),
      Nat.div_eq_of_lt hC, Nat.add_zero]
  · rw [show B % 2 ^ (v - n) = B % 2 ^ v % 2 ^ (v - n) from
      (Nat.mod_mod_of_dvd B ⟨2 ^ n, hvsplit⟩).symm,
      hbuf, hrepr, mul_comm _ ((2 : Nat) ^ (v - n)),
      Nat.mul_add_mod, Nat.mod_eq_of_lt hC]

theorem readBitsFast_spec {S : List Nat} {R : bstreamReader} {p n : Nat}
    (hg : GoodAt S R p) (hn : n ≤ R.valid) :
    readBitsFast R n = some (bitsToNat (((allBits S).drop p).take n),
      { R with valid := R.valid - n }) ∧
    GoodAt S { R with valid := R.valid - n } (p + n) := by
  obtain ⟨hst, hv64, hpv, hol, hbuf⟩ := hg
  have hlen : p + R.valid ≤ (allBits S).length := by
    rw [allBits_length]
    omega
  obtain ⟨hx1, hx2⟩ := bits_extract hn hlen hbuf
  constructor
  · unfold readBitsFast
    rw [if_neg (by omega), hx1]
  · refine ⟨hst, ?_, ?_, hol, hx2⟩
    · show R.valid - n ≤ 64
      omega
    · show p + n + (R.valid - n) = 8 * R.streamOffset
      omega



theorem readBits_spec {S : List Nat} {R : bstreamReader} {p n : Nat}
    (hS : ∀ x ∈ S, x < 256) (hg : GoodAt S R p) (h1 : 1 ≤ n) (h64 : n ≤ 64)
    (hpn : p + n ≤ 8 * S.length) :
    ∃ R', readBits R n = some (bitsToNat (((allBits S).drop p).take n), R') ∧
      GoodAt S R' (p + n) := by
  obtain ⟨hst, hv64, hpv, hol, hbuf⟩ := hg
  unfold readBits
  by_cases hv0 : R.valid = 0
  · have hp : p = 8 * R.streamOffset := by omega
    rw [if_pos hv0, hp]
    obtain ⟨R1, hload, hg1, hn1⟩ := load_spec hS hst hol h1 h64 (by omega)
    obtain ⟨hfast, hg2⟩ := readBitsFast_spec hg1 hn1
    refine ⟨_, ?_, hg2⟩
    rw [hload]
    dsimp only
    rw [if_pos hn1]
    exact hfast
  · rw [if_neg hv0]
    dsimp only
    by_cases hfastc : n ≤ R.valid
    · obtain ⟨hfast, hg2⟩ :=
        readBitsFast_spec ⟨hst, hv64, hpv, hol, hbuf⟩ hfastc
      rw [if_pos hfastc]
      exact ⟨_, hfast, hg2⟩
    · rw [if_neg hfastc]
      have hklb : 1 ≤ n - R.valid := by omega
      have hk64 : n - R.valid ≤ 64 := by omega
      have hrem2 : 8 * ({ R with valid := 0 } : bstreamReader).streamOffset +
          (n - R.valid) ≤ 8 * S.length := by
        show 8 * R.streamOffset + (n - R.valid) ≤ 8 * S.length
        omega
      obtain ⟨R2, hload2, hg2, hn2⟩ := load_spec hS
        (show ({ R with valid := 0 } : bstreamReader).stream = S from hst)
        (show ({ R with valid := 0 } : bstreamReader).streamOffset ≤ S.length
          from hol) hklb hk64 hrem2
      have hR0off : 8 * ({ R with valid := 0 } : bstreamReader).streamOffset =
          8 * R.streamOffset := rfl
      rw [hR0off] at hg2
      obtain ⟨hg2a, hg2b, hg2c, hg2d, hg2e⟩ := hg2
      have hlen2 : 8 * R.streamOffset + R2.valid ≤ (allBits S).length := by
        rw [allBits_length]
        omega
      obtain ⟨hx1, hx2⟩ := bits_extract hn2 hlen2 hg2e
      have hwrap : (256 + R2.valid - (n - R.valid)) % 256 =
          R2.valid - (n - R.valid) := by omega
      have hA1lt : bitsToNat (((allBits S).drop p).take R.valid) <
          2 ^ R.valid := bitsToNat_take_lt _ _
      have hA2lt : bitsToNat (((allBits S).drop
          (8 * R.streamOffset)).take (n - R.valid)) < 2 ^ (n - R.valid) :=
        bitsToNat_take_lt _ _
      have hvalue : (((R.buffer &&& ((1 <<< R.valid) - 1)) <<<
            (n - R.valid)) % 2 ^ 64) |||
          ((R2.buffer >>> ((256 + R2.valid - (n - R.valid)) % 256)) &&&
            ((1 <<< (n - R.valid)) - 1)) =
          bitsToNat (((allBits S).drop p).take n) := by
        have hm1 : R.buffer &&& ((1 <<< R.valid) - 1) =
            bitsToNat (((allBits S).drop p).take R.valid) := by
          rw [Nat.one_shiftLeft, Nat.and_pow_two_sub_one_eq_mod, hbuf]
        have hshl : bitsToNat (((allBits S).drop p).take R.valid) <<<
            (n - R.valid) % 2 ^ 64 =
            bitsToNat (((allBits S).drop p).take R.valid) *
              2 ^ (n - R.valid) := by
          rw [Nat.shiftLeft_eq]
          refine Nat.mod_eq_of_lt ?_
          calc bitsToNat (((allBits S).drop p).take R.valid) *
              2 ^ (n - R.valid) <
              2 ^ R.valid * 2 ^ (n - R.valid) :=
                mul_lt_mul_of_pos_right hA1lt
                  (Nat.pos_pow_of_pos _ (by norm_num))
            _ = 2 ^ (R.valid + (n - R.valid)) := (pow_add 2 _ _).symm
            _ ≤ 2 ^ 64 := Nat.pow_le_pow_right (by norm_num) (by omega)
        have hm2 : (R2.buffer >>> ((256 + R2.valid - (n - R.valid)) % 256)) &&&
            ((1 <<< (n - R.valid)) - 1) =
            bitsToNat (((allBits S).drop
              (8 * R.streamOffset)).take (n - R.valid)) := by
          rw [hwrap]
          exact hx1
        rw [hm1, hshl, hm2]
        rw [lor_eq_add (Nat.mul_mod_left _ _) hA2lt]
        have hsplitn : ((allBits S).drop p).take n =
            ((allBits S).drop p).take R.valid ++
              ((allBits S).drop (8 * R.streamOffset)).take (n - R.valid) := by
          have ht := List.take_add ((allBits S).drop p) R.valid (n - R.valid)
          rw [show R.valid + (n - R.valid) = n from by omega] at ht
          rw [ht, List.drop_drop, hpv]
        rw [hsplitn, bitsToNat_append, List.length_take, List.length_drop,
          allBits_length, show min (n - R.valid)
            (8 * S.length - 8 * R.streamOffset) = n - R.valid from by omega]
      refine ⟨{ R2 with valid := (256 + R2.valid - (n - R.valid)) % 256 },
        ?_, ?_⟩
      · rw [hload2]
        dsimp only
        rw [hvalue]
      · refine ⟨hg2a, ?_, ?_, hg2d, ?_⟩
        · show (256 + R2.valid - (n - R.valid)) % 256 ≤ 64
          omega
        · show p + n + (256 + R2.valid - (n - R.valid)) % 256 =
            8 * R2.streamOffset
          rw [hwrap]
          omega
        · show R2.buffer % 2 ^ ((256 + R2.valid - (n - R.valid)) % 256) =
            bitsToNat (((allBits S).drop (p + n)).take
              ((256 + R2.valid - (n - R.valid)) % 256))
          rw [hwrap, hx2, show 8 * R.streamOffset + (n - R.valid) = p + n
            from by omega]



/-- The total bit width of a list of (value, width) pairs. -/
def sumW (qs : List (Nat × Nat)) : Nat := (qs.map Prod.snd).sum

theorem readAll_spec : ∀ (qs : List (Nat × Nat)) {S : List Nat}
    {R : bstreamReader} {p : Nat},
    (∀ x ∈ S, x < 256) → GoodAt S R p →
    (∀ q ∈ qs, 1 ≤ q.2 ∧ q.2 ≤ 64) →
    qs.flatMap (fun q => natBitsBE q.2 q.1) =
      ((allBits S).drop p).take (sumW qs) →
    p + sumW qs ≤ 8 * S.length →
    readAll (qs.map Prod.snd) R = some (qs.map (fun q => q.1 % 2 ^ q.2))
  | [], S, R, p, _, _, _, _, _ => rfl
  | q :: qs, S, R, p, hS, hg, hqs, hsuf, hrem => by
    have hq := hqs q (by simp)
    have hws : sumW (q :: qs) = q.2 + sumW qs := by
      simp [sumW]
    obtain ⟨R1, hread, hg1⟩ := readBits_spec hS hg hq.1 hq.2
      (by rw [hws] at hrem; omega)
    have htsplit : ((allBits S).drop p).take (sumW (q :: qs)) =
        ((allBits S).drop p).take q.2 ++
          ((allBits S).drop (p + q.2)).take (sumW qs) := by
      have ht := List.take_add ((allBits S).drop p) q.2 (sumW qs)
      rw [← hws] at ht
      rw [ht, List.drop_drop]
    have hflat : natBitsBE q.2 q.1 ++
        qs.flatMap (fun q => natBitsBE q.2 q.1) =
        ((allBits S).drop p).take q.2 ++
          ((allBits S).drop (p + q.2)).take (sumW qs) := by
      rw [← htsplit, ← hsuf, List.flatMap_cons]
    have hlen1 : (natBitsBE q.2 q.1).length =
        (((allBits S).drop p).take q.2).length := by
      rw [natBitsBE_length, List.length_take, List.length_drop,
        allBits_length]
      rw [hws] at hrem
      omega
    obtain ⟨hinj1, hinj2⟩ := List.append_inj hflat hlen1
    have hval : bitsToNat (((allBits S).drop p).take q.2) =
        q.1 % 2 ^ q.2 := by
      rw [← hinj1, bitsToNat_natBitsBE]
    have hih := readAll_spec qs hS hg1 (fun r hr => hqs r (by simp [hr]))
      hinj2 (by rw [hws] at hrem; omega)
    show readAll (q.2 :: qs.map Prod.snd) R = _
    unfold readAll
    rw [hread]
    dsimp only
    rw [hih, hval]
    rfl

/-- C4: Bit-stream round-trip — writing any finite sequence of (value,
width) pairs with each width in [1, 64] and each value below `2 ^ width`
into a fresh `bstream` with `writeBits`, and then reading the widths back
in order with `readBits` over the resulting bytes, yields exactly the
original values with no error. -/
theorem bstream_roundTrip (ps : List (Nat × Nat))
    (hps : ∀ q ∈ ps, 1 ≤ q.2 ∧ q.2 ≤ 64 ∧ q.1 < 2 ^ q.2) :
    readAll (ps.map Prod.snd) (newBReader (writeAll ps).stream) =
      some (ps.map Prod.fst) := by
  obtain ⟨hwf, hwr⟩ := writeAll_spec ps (fun q hq => (hps q hq).2.1)
  obtain ⟨hc8, hnil, hbytes, hlast⟩ := hwf
  have hg : GoodAt (writeAll ps).stream
      (newBReader (writeAll ps).stream) 0 :=
    ⟨rfl, Nat.zero_le 64, rfl, Nat.zero_le _, rfl⟩
  have hflen : ∀ qs : List (Nat × Nat),
      (qs.flatMap (fun q => natBitsBE q.2 q.1)).length = sumW qs := by
    intro qs
    induction qs with
    | nil => rfl
    | cons r qs ih =>
      rw [List.flatMap_cons, List.length_append, natBitsBE_length, ih]
      simp [sumW]
  have hlenw : (writtenBits (writeAll ps)).length =
      writtenLen (writeAll ps) := by
    unfold writtenBits
    rw [List.length_take, allBits_length]
    unfold writtenLen
    omega
  have hsw : sumW ps = writtenLen (writeAll ps) := by
    rw [← hflen ps, ← hwr, hlenw]
  have hsuf : ps.flatMap (fun q => natBitsBE q.2 q.1) =
      ((allBits (writeAll ps).stream).drop 0).take (sumW ps) := by
    rw [List.drop_zero, hsw, ← hwr]
    rfl
  have hrem : 0 + sumW ps ≤ 8 * (writeAll ps).stream.length := by
    rw [hsw]
    unfold writtenLen
    omega
  have h := readAll_spec ps hbytes hg
    (fun q hq => ⟨(hps q hq).1, (hps q hq).2.1⟩) hsuf hrem
  rw [h]
  congr 1
  exact List.map_congr_left (fun q hq => Nat.mod_eq_of_lt (hps q hq).2.2)

theorem bstream_roundTrip_witness :
    (∀ q ∈ ([(5, 3), (1, 1), (700, 10)] : List (Nat × Nat)),
      1 ≤ q.2 ∧ q.2 ≤ 64 ∧ q.1 < 2 ^ q.2) ∧
    readAll (([(5, 3), (1, 1), (700, 10)] : List (Nat × Nat)).map Prod.snd)
      (newBReader (writeAll [(5, 3), (1, 1), (700, 10)]).stream) =
      some (([(5, 3), (1, 1), (700, 10)] : List (Nat × Nat)).map Prod.fst) :=
  ⟨by decide, bstream_roundTrip _ (by decide)⟩


end EmbedTSDB
